import Mathlib

/-!
Verification development for the cpuprofile-to-md analysis engine.

The TypeScript source (src/analyzer.ts, src/parser.ts) is shallowly
embedded here:

* JavaScript numbers are modelled as rationals (`ℚ`); the profile data
  in scope of the claims is exact arithmetic on sample deltas, so no
  floating-point rounding is modelled.  The single place where the code
  can produce a non-finite number (`totalTime / totalSamples` with zero
  samples) is modelled with `Option ℚ`, `none` standing for the
  non-finite JS value (NaN / Infinity).
* JavaScript `Map` objects are modelled as insertion-ordered association
  lists (`JMap`): `set` of a fresh key appends, `set` of an existing key
  updates in place, and `values()` iterates in insertion order.
* JavaScript `Set` objects of strings are modelled as insertion-ordered
  duplicate-free lists (`setAdd`).
* The recursive traversals (`computeTotalTime`, `buildCallTree`) are
  modelled with an explicit fuel argument returning `Option`; `none`
  models divergence / stack overflow of the JS recursion.  Fuel
  sufficiency on well-formed inputs is proved, so on those inputs the
  model is a total function, exactly like the source.
* `Array.prototype.sort` with comparator `(a, b) => b.k - a.k` is the
  stable descending sort by `k`; it is modelled by the stable insertion
  sort `sortByKeyDesc`.
-/

namespace CpuProf

/-! ### Insertion-ordered maps (JS `Map`) -/

/-- Insertion-ordered association list modelling a JS `Map`. -/
abbrev JMap (κ α : Type) := List (κ × α)

/-- Lookup, JS `Map.prototype.get` (first entry with the key; entries are
kept unique by `jSet`). -/
def jGet [DecidableEq κ] (m : JMap κ α) (k : κ) : Option α :=
  (m.find? fun p => decide (p.1 = k)).map (·.2)

/-- JS `Map.prototype.set`: update in place if the key is present,
append otherwise.  (On the unique-key maps built by `jSet` itself this
is exactly the JS behaviour.) -/
def jSet [DecidableEq κ] : JMap κ α → κ → α → JMap κ α
  | [], k, v => [(k, v)]
  | p :: m, k, v => if p.1 = k then (k, v) :: m else p :: jSet m k v

/-- JS `Map.prototype.values()`, in insertion order. -/
def jValues (m : JMap κ α) : List α := m.map (·.2)

theorem jGet_nil [DecidableEq κ] (k : κ) : jGet ([] : JMap κ α) k = none := rfl

theorem jGet_cons [DecidableEq κ] (p : κ × α) (m : JMap κ α) (k : κ) :
    jGet (p :: m) k = if p.1 = k then some p.2 else jGet m k := by
  by_cases h : p.1 = k <;> simp [jGet, List.find?_cons, h]

theorem jGet_jSet_self [DecidableEq κ] (m : JMap κ α) (k : κ) (v : α) :
    jGet (jSet m k v) k = some v := by
  induction m with
  | nil => simp [jSet, jGet_cons]
  | cons p m ih =>
    unfold jSet
    by_cases hp : p.1 = k
    · rw [if_pos hp, jGet_cons]; simp
    · rw [if_neg hp, jGet_cons, if_neg hp]; exact ih

theorem jGet_jSet_ne [DecidableEq κ] (m : JMap κ α) (k k' : κ) (v : α)
    (h : k' ≠ k) : jGet (jSet m k v) k' = jGet m k' := by
  induction m with
  | nil =>
    simp only [jSet, jGet_cons, jGet_nil]
    rw [if_neg (fun h2 => h h2.symm)]
  | cons p m ih =>
    unfold jSet
    by_cases hp : p.1 = k
    · rw [if_pos hp, jGet_cons, jGet_cons, if_neg (fun h2 => h h2.symm), if_neg]
      rw [hp]; exact fun h2 => h h2.symm
    · rw [if_neg hp, jGet_cons, jGet_cons]
      by_cases hpk : p.1 = k'
      · rw [if_pos hpk, if_pos hpk]
      · rw [if_neg hpk, if_neg hpk]; exact ih

theorem jGet_isSome_of_mem_keys [DecidableEq κ] (m : JMap κ α) (k : κ)
    (h : k ∈ m.map (·.1)) : (jGet m k).isSome := by
  induction m with
  | nil => simp at h
  | cons p m ih =>
    rw [jGet_cons]
    by_cases hp : p.1 = k
    · simp [hp]
    · simp only [if_neg hp]
      apply ih
      simp only [List.map_cons, List.mem_cons] at h
      rcases h with h | h
      · exact absurd h.symm hp
      · exact h

/-! ### JS string helpers -/

/-- JS `String.prototype.startsWith`, on character lists. -/
def strStartsWith (s pat : String) : Bool := pat.toList.isPrefixOf s.toList

/-- JS `String.prototype.includes` (contiguous substring search). -/
def strIncludes (s pat : String) : Bool :=
  s.toList.tails.any fun t => pat.toList.isPrefixOf t

/-! ### Stable descending sort (JS `Array.prototype.sort` with a
`(a, b) => key b - key a` comparator; JS sort is stable) -/

/-- Insert `x` into `l`, placing it before the first element whose key is
at most `key x`.  Equal keys therefore keep the original (stable) order
when used through `sortByKeyDesc`. -/
def insertDesc (key : α → ℚ) (x : α) : List α → List α
  | [] => [x]
  | y :: ys => if key y ≤ key x then x :: y :: ys else y :: insertDesc key x ys

/-- Stable sort, descending by `key`. -/
def sortByKeyDesc (key : α → ℚ) (l : List α) : List α :=
  l.foldr (insertDesc key) []

theorem insertDesc_nil (key : α → ℚ) (x : α) : insertDesc key x [] = [x] := rfl

theorem insertDesc_cons (key : α → ℚ) (x y : α) (ys : List α) :
    insertDesc key x (y :: ys) =
      if key y ≤ key x then x :: y :: ys else y :: insertDesc key x ys := rfl

theorem mem_insertDesc (key : α → ℚ) (x : α) (l : List α) (z : α) :
    z ∈ insertDesc key x l ↔ z = x ∨ z ∈ l := by
  induction l with
  | nil => simp [insertDesc]
  | cons y ys ih =>
    rw [insertDesc_cons]
    by_cases h : key y ≤ key x
    · simp [h]
    · simp only [if_neg h, List.mem_cons, ih]
      tauto

theorem perm_insertDesc (key : α → ℚ) (x : α) (l : List α) :
    List.Perm (insertDesc key x l) (x :: l) := by
  induction l with
  | nil => simp [insertDesc]
  | cons y ys ih =>
    rw [insertDesc_cons]
    by_cases h : key y ≤ key x
    · simp [h]
    · rw [if_neg h]
      exact (List.Perm.cons y ih).trans (List.Perm.swap x y ys)

theorem perm_sortByKeyDesc (key : α → ℚ) (l : List α) :
    List.Perm (sortByKeyDesc key l) l := by
  induction l with
  | nil => simp [sortByKeyDesc]
  | cons x xs ih =>
    have : sortByKeyDesc key (x :: xs) = insertDesc key x (sortByKeyDesc key xs) := rfl
    rw [this]
    exact (perm_insertDesc key x _).trans (List.Perm.cons x ih)

theorem mem_sortByKeyDesc (key : α → ℚ) (l : List α) (z : α) :
    z ∈ sortByKeyDesc key l ↔ z ∈ l :=
  (perm_sortByKeyDesc key l).mem_iff

theorem pairwise_insertDesc (key : α → ℚ) (x : α) (l : List α)
    (h : l.Pairwise fun a b => key b ≤ key a) :
    (insertDesc key x l).Pairwise fun a b => key b ≤ key a := by
  induction l with
  | nil => simp [insertDesc]
  | cons y ys ih =>
    rw [insertDesc_cons]
    rcases List.pairwise_cons.mp h with ⟨hy, hys⟩
    by_cases hk : key y ≤ key x
    · rw [if_pos hk]
      refine List.pairwise_cons.mpr ⟨?_, h⟩
      intro z hz
      rcases List.mem_cons.mp hz with rfl | hz
      · exact hk
      · exact le_trans (hy z hz) hk
    · rw [if_neg hk]
      refine List.pairwise_cons.mpr ⟨?_, ih hys⟩
      intro z hz
      rcases (mem_insertDesc key x ys z).mp hz with rfl | hz
      · exact le_of_lt (lt_of_not_le hk)
      · exact hy z hz

theorem pairwise_sortByKeyDesc (key : α → ℚ) (l : List α) :
    (sortByKeyDesc key l).Pairwise fun a b => key b ≤ key a := by
  induction l with
  | nil => simp [sortByKeyDesc]
  | cons x xs ih => exact pairwise_insertDesc key x _ ih

/-- Stability: inserting `x` leaves the subsequence of any fixed key value
unchanged except for prepending `x` to its own key class. -/
theorem filter_insertDesc (key : α → ℚ) (x : α) (l : List α) (c : ℚ) :
    (insertDesc key x l).filter (fun a => decide (key a = c)) =
      if key x = c then x :: l.filter (fun a => decide (key a = c))
      else l.filter (fun a => decide (key a = c)) := by
  induction l with
  | nil => by_cases h : key x = c <;> simp [insertDesc, List.filter, h]
  | cons y ys ih =>
    rw [insertDesc_cons]
    by_cases hk : key y ≤ key x
    · rw [if_pos hk]
      by_cases hx : key x = c <;> simp [List.filter_cons, hx]
    · have hlt : key x < key y := lt_of_not_le hk
      rw [if_neg hk]
      simp only [List.filter_cons]
      by_cases hy : key y = c
      · have hx : ¬ key x = c := by
          intro h; rw [h] at hlt; rw [hy] at hlt; exact lt_irrefl _ hlt
        simp [hy, hx, ih]
      · by_cases hx : key x = c <;> simp [hy, hx, ih]

/-- Stability of the whole sort: each key class of the output equals the
key class of the input in order. -/
theorem filter_sortByKeyDesc (key : α → ℚ) (l : List α) (c : ℚ) :
    (sortByKeyDesc key l).filter (fun a => decide (key a = c)) =
      l.filter (fun a => decide (key a = c)) := by
  induction l with
  | nil => rfl
  | cons x xs ih =>
    have hs : sortByKeyDesc key (x :: xs) = insertDesc key x (sortByKeyDesc key xs) := rfl
    rw [hs, filter_insertDesc, List.filter_cons]
    by_cases hx : key x = c <;> simp [hx, ih]

/-- Inserting an element whose key is strictly above everything in `v`
happens inside `u`. -/
theorem insertDesc_append_high (key : α → ℚ) (x : α) (u v : List α)
    (hv : ∀ b ∈ v, key b < key x) :
    insertDesc key x (u ++ v) = insertDesc key x u ++ v := by
  induction u with
  | nil =>
    rcases v with _ | ⟨y, ys⟩
    · rfl
    · have : key y ≤ key x := le_of_lt (hv y (List.mem_cons_self y ys))
      simp [insertDesc, this]
  | cons y u ih =>
    unfold insertDesc
    by_cases hk : key y ≤ key x <;> simp [hk, ih]

/-- Inserting an element whose key is strictly below everything in `u`
happens inside `v`. -/
theorem insertDesc_append_low (key : α → ℚ) (x : α) (u v : List α)
    (hu : ∀ a ∈ u, ¬ key a ≤ key x) :
    insertDesc key x (u ++ v) = u ++ insertDesc key x v := by
  induction u with
  | nil => rfl
  | cons y u ih =>
    have hy : ¬ key y ≤ key x := hu y (List.mem_cons_self y u)
    simp only [List.cons_append]
    rw [insertDesc_cons, if_neg hy, ih fun a ha => hu a (List.mem_cons_of_mem y ha)]

/-- Sorting a list that splits by a predicate into a strictly-higher-key
part and a strictly-lower-key part sorts the parts independently. -/
theorem sortByKeyDesc_split (key : α → ℚ) (P : α → Bool) (l : List α)
    (hsep : ∀ a ∈ l, P a = true → ∀ b ∈ l, P b = false → key b < key a) :
    sortByKeyDesc key l =
      sortByKeyDesc key (l.filter P) ++ sortByKeyDesc key (l.filter fun a => ! P a) := by
  induction l with
  | nil => rfl
  | cons x xs ih =>
    have hsx : ∀ a ∈ xs, P a = true → ∀ b ∈ xs, P b = false → key b < key a :=
      fun a ha hpa b hb hpb =>
        hsep a (List.mem_cons_of_mem x ha) hpa b (List.mem_cons_of_mem x hb) hpb
    have hstep : sortByKeyDesc key (x :: xs) = insertDesc key x (sortByKeyDesc key xs) := rfl
    rcases hP : P x with _ | _
    · -- x goes into the low part
      have hu : ∀ a ∈ sortByKeyDesc key (xs.filter P), ¬ key a ≤ key x := by
        intro a ha
        have ha' : a ∈ xs.filter P := (mem_sortByKeyDesc _ _ _).mp ha
        rcases List.mem_filter.mp ha' with ⟨hma, hpa⟩
        have := hsep a (List.mem_cons_of_mem x hma) hpa x (List.mem_cons_self x xs) hP
        exact not_le_of_lt this
      rw [hstep, ih hsx, insertDesc_append_low key x _ _ hu]
      have h1 : (x :: xs).filter P = xs.filter P := by simp [List.filter_cons, hP]
      have h2 : (x :: xs).filter (fun a => ! P a) = x :: xs.filter (fun a => ! P a) := by
        simp [List.filter_cons, hP]
      rw [h1, h2]
      rfl
    · -- x goes into the high part
      have hv : ∀ b ∈ sortByKeyDesc key (xs.filter fun a => ! P a), key b < key x := by
        intro b hb
        have hb' : b ∈ xs.filter fun a => ! P a := (mem_sortByKeyDesc _ _ _).mp hb
        rcases List.mem_filter.mp hb' with ⟨hmb, hpb'⟩
        have hpb : P b = false := by
          rcases h : P b with _ | _
          · rfl
          · rw [h] at hpb'; simp at hpb'
        exact hsep x (List.mem_cons_self x xs) hP b (List.mem_cons_of_mem x hmb) hpb
      rw [hstep, ih hsx, insertDesc_append_high key x _ _ hv]
      have h1 : (x :: xs).filter P = x :: xs.filter P := by simp [List.filter_cons, hP]
      have h2 : (x :: xs).filter (fun a => ! P a) = xs.filter (fun a => ! P a) := by
        simp [List.filter_cons, hP]
      rw [h1, h2]
      rfl

/-- Truncating then filtering yields an initial segment of filtering. -/
theorem filter_take_append (P : α → Bool) (n : ℕ) (l : List α) :
    ∃ u, (l.take n).filter P ++ u = l.filter P := by
  induction l generalizing n with
  | nil => exact ⟨[], by simp⟩
  | cons x xs ih =>
    rcases n with _ | n
    · exact ⟨(x :: xs).filter P, by simp⟩
    · rcases ih n with ⟨u, hu⟩
      rcases h : P x with _ | _
      · exact ⟨u, by simp [List.filter_cons, h, hu]⟩
      · exact ⟨u, by simp [List.filter_cons, h, hu]⟩

/-! ### Profile data model (src/types.ts) -/

/-- V8CpuProfileCallFrame. -/
structure V8CallFrame where
  functionName : String
  scriptId : String
  url : String
  lineNumber : Int
  columnNumber : Int
deriving DecidableEq

/-- V8CpuProfileNode.  `children` is `[]` when absent (the analyzer treats
a missing array and an empty array identically), `parent` is `none` when
absent. -/
structure V8Node where
  id : ℕ
  callFrame : V8CallFrame
  hitCount : ℕ := 0
  children : List ℕ := []
  parent : Option ℕ := none
deriving DecidableEq

/-- V8CpuProfile. -/
structure V8Profile where
  startTime : ℚ := 0
  endTime : ℚ := 0
  nodes : List V8Node
  samples : List ℕ
  timeDeltas : List ℚ
deriving DecidableEq

/-! ### analyzeProfile, part 1: node map and self-time attribution
(src/analyzer.ts lines 28-51) -/

/-- The node map built at the top of `analyzeProfile`. -/
def buildNodeMap (nodes : List V8Node) : JMap ℕ V8Node :=
  nodes.foldl (fun m node => jSet m node.id node) []

/-- The sample loop of `analyzeProfile` (lines 38-44): one pass over the
samples, accumulating the self-time map and the hit-count map.  The loop
reads `timeDeltas[i]` for `i < samples.length`; equality of the two
lengths is the profile well-formedness assumed by the spec, under which
the zip covers exactly the loop iterations. -/
def buildSelfHit (samples : List ℕ) (timeDeltas : List ℚ) :
    JMap ℕ ℚ × JMap ℕ ℕ :=
  (samples.zip timeDeltas).foldl
    (fun maps sd =>
      (jSet maps.1 sd.1 ((jGet maps.1 sd.1).getD 0 + sd.2),
       jSet maps.2 sd.1 ((jGet maps.2 sd.1).getD 0 + 1)))
    ([], [])

/-! ### computeTotalTime (src/analyzer.ts lines 96-130)

The JS function recurses over children with a `visited` guard; the
recursion is modelled with explicit fuel, `none` standing for the stack
overflow the JS recursion would hit if the fuel bound were insufficient
(it never is: see the fuel-sufficiency theorems below). -/

/-- State of `computeTotalTime`: the `totalTimeMap` accumulator and the
`visited` set (as a list; only membership is used). -/
structure TTState where
  tmap : JMap ℕ ℚ
  visited : List ℕ
deriving DecidableEq

mutual

/-- One call of the inner `computeNodeTotalTime(nodeId)`. -/
def goNode (nm : JMap ℕ V8Node) (sm : JMap ℕ ℚ) :
    ℕ → ℕ → TTState → Option (ℚ × TTState)
  | 0, _, _ => none
  | fuel + 1, nodeId, st =>
    if nodeId ∈ st.visited then
      some ((jGet st.tmap nodeId).getD 0, st)
    else
      let st1 : TTState := ⟨st.tmap, nodeId :: st.visited⟩
      match jGet nm nodeId with
      | none => some (0, st1)
      | some node =>
        match goChildren nm sm fuel node.children st1 with
        | none => none
        | some (csum, st2) =>
          some ((jGet sm nodeId).getD 0 + csum,
            ⟨jSet st2.tmap nodeId ((jGet sm nodeId).getD 0 + csum), st2.visited⟩)
termination_by fuel _ _ => (fuel, 0)

/-- The `for (const childId of node.children)` loop inside
`computeNodeTotalTime`, accumulating the children's totals. -/
def goChildren (nm : JMap ℕ V8Node) (sm : JMap ℕ ℚ) :
    ℕ → List ℕ → TTState → Option (ℚ × TTState)
  | _, [], st => some (0, st)
  | fuel, c :: cs, st =>
    match goNode nm sm fuel c st with
    | none => none
    | some (t, st1) =>
      match goChildren nm sm fuel cs st1 with
      | none => none
      | some (rest, st2) => some (t + rest, st2)
termination_by fuel cs _ => (fuel, cs.length + 1)

end

/-- Fuel that is always sufficient: one more than the number of node ids
and child ids mentioned anywhere in the table. -/
def ttFuel (nodes : List V8Node) : ℕ :=
  (nodes.map (·.id) ++ nodes.flatMap (·.children)).length + 1

/-- The outer loop of `computeTotalTime`: start a traversal from every
node in the table. -/
def computeTotalTimeSt (nodes : List V8Node) (nm : JMap ℕ V8Node)
    (sm : JMap ℕ ℚ) : Option TTState :=
  nodes.foldlM (fun st node => (goNode nm sm (ttFuel nodes) node.id st).map (·.2))
    ⟨[], []⟩

/-- computeTotalTime: the returned `totalTimeMap`.  The `getD` never
fires (fuel sufficiency is proved below). -/
def computeTotalTime (nodes : List V8Node) (nm : JMap ℕ V8Node)
    (sm : JMap ℕ ℚ) : JMap ℕ ℚ :=
  ((computeTotalTimeSt nodes nm sm).map (·.tmap)).getD []

/-! ### aggregateFunctionStats (src/analyzer.ts lines 135-202) -/

/-- FunctionStats.  `callers`/`callees` are JS `Set`s of keys, modelled
as insertion-ordered duplicate-free lists. -/
structure FunctionStats where
  key : String
  name : String
  url : String
  line : Int
  column : Int
  selfTime : ℚ
  totalTime : ℚ
  selfPercent : ℚ
  totalPercent : ℚ
  hitCount : ℕ
  callers : List String
  callees : List String
deriving DecidableEq

/-- The function-identity key
`functionName@url:lineNumber:columnNumber`. -/
def statKey (cf : V8CallFrame) : String :=
  cf.functionName ++ "@" ++ cf.url ++ ":" ++ toString cf.lineNumber ++ ":" ++
    toString cf.columnNumber

/-- JS `Set.prototype.add`: append if new. -/
def setAdd [DecidableEq α] (s : List α) (x : α) : List α :=
  if x ∈ s then s else s ++ [x]

/-- The fresh statistics record created when a key is first seen. -/
def initialStats (cf : V8CallFrame) : FunctionStats :=
  { key := statKey cf
    name := cf.functionName
    url := cf.url
    line := cf.lineNumber
    column := cf.columnNumber
    selfTime := 0
    totalTime := 0
    selfPercent := 0
    totalPercent := 0
    hitCount := 0
    callers := []
    callees := [] }

/-- Processing of one node in the aggregation loop (lines 145-193). -/
def aggStep (sm tm : JMap ℕ ℚ) (hm : JMap ℕ ℕ) (nm : JMap ℕ V8Node)
    (m : JMap String FunctionStats) (node : V8Node) : JMap String FunctionStats :=
  let cf := node.callFrame
  let key := statKey cf
  let prev := (jGet m key).getD (initialStats cf)
  let stats1 : FunctionStats :=
    { prev with
      selfTime := prev.selfTime + (jGet sm node.id).getD 0
      totalTime := prev.totalTime + (jGet tm node.id).getD 0
      hitCount := prev.hitCount + (jGet hm node.id).getD 0 }
  let stats2 : FunctionStats :=
    match node.parent with
    | none => stats1
    | some pid =>
      match jGet nm pid with
      | none => stats1
      | some parentNode =>
        { stats1 with callers := setAdd stats1.callers (statKey parentNode.callFrame) }
  let stats3 : FunctionStats :=
    node.children.foldl
      (fun s childId =>
        match jGet nm childId with
        | none => s
        | some childNode => { s with callees := setAdd s.callees (statKey childNode.callFrame) })
      stats2
  jSet m key stats3

/-- aggregateFunctionStats: the aggregation loop followed by the
percentage pass (lines 196-199). -/
def aggregateFunctionStats (nodes : List V8Node) (sm tm : JMap ℕ ℚ)
    (hm : JMap ℕ ℕ) (totalTime : ℚ) (nm : JMap ℕ V8Node) :
    JMap String FunctionStats :=
  let statsMap := nodes.foldl (aggStep sm tm hm nm) []
  statsMap.map fun p =>
    (p.1,
      { p.2 with
        selfPercent := if 0 < totalTime then p.2.selfTime / totalTime * 100 else 0
        totalPercent := if 0 < totalTime then p.2.totalTime / totalTime * 100 else 0 })

/-! ### determineHotspotType and extractHotspots
(src/analyzer.ts lines 245-281) -/

inductive HotspotType where
  | native
  | app
  | unknown
deriving DecidableEq

/-- determineHotspotType (lines 267-281).  The `name` parameter is
accepted and ignored, as in the source. -/
def determineHotspotType (url : String) (name : String) : HotspotType :=
  if url = "" || strStartsWith url "native " || strIncludes url "(native)" then
    .native
  else if strIncludes url "node_modules" || strIncludes url "internal/" then
    .native
  else if strStartsWith url "http://" || strStartsWith url "https://" ||
      strStartsWith url "file://" then
    .app
  else if strIncludes url "/" || strIncludes url "\\" then
    .app
  else
    .unknown

/-- Hotspot: a FunctionStats record with callers/callees materialized as
lists and a type classification. -/
structure Hotspot where
  key : String
  name : String
  url : String
  line : Int
  column : Int
  selfTime : ℚ
  totalTime : ℚ
  selfPercent : ℚ
  totalPercent : ℚ
  hitCount : ℕ
  callers : List String
  callees : List String
  type : HotspotType
deriving DecidableEq

/-- The spread in `extractHotspots`' final `map`. -/
def toHotspot (s : FunctionStats) : Hotspot :=
  { key := s.key
    name := s.name
    url := s.url
    line := s.line
    column := s.column
    selfTime := s.selfTime
    totalTime := s.totalTime
    selfPercent := s.selfPercent
    totalPercent := s.totalPercent
    hitCount := s.hitCount
    callers := s.callers
    callees := s.callees
    type := determineHotspotType s.url s.name }

/-- extractHotspots (lines 245-262): filter by self%, stable sort
descending by self time, truncate, convert. -/
def extractHotspots (functionStats : JMap String FunctionStats)
    (threshold : ℚ) (maxCount : ℕ) : List Hotspot :=
  ((sortByKeyDesc FunctionStats.selfTime
      ((jValues functionStats).filter fun s => decide (threshold ≤ s.selfPercent))).take
    maxCount).map toHotspot

/-! ### buildCallTree (src/analyzer.ts lines 207-240) -/

/-- CallTreeNode (recursive, hence an inductive type). -/
inductive CallTreeNode where
  | mk (name : String) (url : String) (line : Int)
      (selfTime totalTime selfPercent totalPercent : ℚ)
      (children : List CallTreeNode)

def CallTreeNode.name : CallTreeNode → String
  | .mk n _ _ _ _ _ _ _ => n

def CallTreeNode.url : CallTreeNode → String
  | .mk _ u _ _ _ _ _ _ => u

def CallTreeNode.line : CallTreeNode → Int
  | .mk _ _ l _ _ _ _ _ => l

def CallTreeNode.selfTime : CallTreeNode → ℚ
  | .mk _ _ _ s _ _ _ _ => s

def CallTreeNode.totalTime : CallTreeNode → ℚ
  | .mk _ _ _ _ t _ _ _ => t

def CallTreeNode.selfPercent : CallTreeNode → ℚ
  | .mk _ _ _ _ _ s _ _ => s

def CallTreeNode.totalPercent : CallTreeNode → ℚ
  | .mk _ _ _ _ _ _ t _ => t

def CallTreeNode.children : CallTreeNode → List CallTreeNode
  | .mk _ _ _ _ _ _ _ c => c

mutual

/-- The inner `buildNode(nodeId)` of `buildCallTree`, fuelled.  A missing
node id models the JS runtime crash on `nodeMap.get(nodeId)!` being
`undefined`; fuel exhaustion models unbounded recursion on a cyclic
table. -/
def buildCTNode (nm : JMap ℕ V8Node) (sm tm : JMap ℕ ℚ) (totalTime : ℚ) :
    ℕ → ℕ → Option CallTreeNode
  | 0, _ => none
  | fuel + 1, nodeId =>
    match jGet nm nodeId with
    | none => none
    | some node =>
      match buildCTList nm sm tm totalTime fuel node.children with
      | none => none
      | some cts =>
        some (CallTreeNode.mk node.callFrame.functionName node.callFrame.url
          node.callFrame.lineNumber
          ((jGet sm nodeId).getD 0) ((jGet tm nodeId).getD 0)
          (if 0 < totalTime then (jGet sm nodeId).getD 0 / totalTime * 100 else 0)
          (if 0 < totalTime then (jGet tm nodeId).getD 0 / totalTime * 100 else 0)
          (sortByKeyDesc CallTreeNode.totalTime cts))
termination_by fuel _ => (fuel, 0)

/-- `node.children.map(buildNode)` inside `buildCallTree`. -/
def buildCTList (nm : JMap ℕ V8Node) (sm tm : JMap ℕ ℚ) (totalTime : ℚ) :
    ℕ → List ℕ → Option (List CallTreeNode)
  | _, [] => some []
  | fuel, c :: cs =>
    match buildCTNode nm sm tm totalTime fuel c with
    | none => none
    | some ct =>
      match buildCTList nm sm tm totalTime fuel cs with
      | none => none
      | some cts => some (ct :: cts)
termination_by fuel cs => (fuel, cs.length + 1)

end

/-- buildCallTree: start at the root node. -/
def buildCallTree (rootNode : V8Node) (nm : JMap ℕ V8Node) (sm tm : JMap ℕ ℚ)
    (totalTime : ℚ) (fuel : ℕ) : Option CallTreeNode :=
  buildCTNode nm sm tm totalTime fuel rootNode.id

/-! ### findCriticalPaths (src/analyzer.ts lines 286-319) -/

structure PathNode where
  name : String
  selfPercent : ℚ
  totalPercent : ℚ
deriving DecidableEq

structure CriticalPath where
  path : List PathNode
  cumulativePercent : ℚ
deriving DecidableEq

/-- The recursive `traverse(node, path)` of `findCriticalPaths`,
returning the recorded paths in DFS order. -/
def pathsOf (t : CallTreeNode) (path : List PathNode) : List CriticalPath :=
  match t with
  | .mk name _ _ _ _ selfPercent totalPercent children =>
    let currentPath := path ++ [⟨name, selfPercent, totalPercent⟩]
    if children.isEmpty then
      [⟨currentPath, currentPath.foldl (fun s p => s + p.selfPercent) 0⟩]
    else
      children.attach.flatMap fun c => pathsOf c.1 currentPath
termination_by sizeOf t
decreasing_by
  have := List.sizeOf_lt_of_mem c.2
  simp only [CallTreeNode.mk.sizeOf_spec]
  omega

/-- findCriticalPaths: enumerate, sort by cumulative percent descending
(stably), truncate. -/
def findCriticalPaths (callTree : CallTreeNode) (maxPaths : ℕ) : List CriticalPath :=
  (sortByKeyDesc CriticalPath.cumulativePercent (pathsOf callTree [])).take maxPaths

/-! ### analyzeProfile (src/analyzer.ts lines 22-91) -/

/-- AnalyzeOptions with the defaults of the destructuring on line 26. -/
structure AnalyzeOptions where
  hotspotThreshold : ℚ := 1
  maxHotspots : ℕ := 20
  maxPaths : ℕ := 5
deriving DecidableEq

/-- AnalysisResult.  `sampleInterval` is `none` when the JS division
`totalTime / totalSamples` is not finite (0/0 or x/0). -/
structure AnalysisResult where
  totalTime : ℚ
  totalSamples : ℕ
  sampleInterval : Option ℚ
  functionStats : JMap String FunctionStats
  callTree : CallTreeNode
  hotspots : List Hotspot
  criticalPaths : List CriticalPath
  startTime : ℚ
  endTime : ℚ

/-- analyzeProfile.  `none` models the run failing (a thrown TypeError on
an empty node table or a dangling child id, or unbounded recursion on a
cyclic table while building the call tree). -/
def analyzeProfile (profile : V8Profile) (options : AnalyzeOptions) :
    Option AnalysisResult :=
  let nm := buildNodeMap profile.nodes
  let maps := buildSelfHit profile.samples profile.timeDeltas
  let totalTime := profile.timeDeltas.foldl (· + ·) 0
  let totalSamples := profile.samples.length
  let sampleInterval : Option ℚ :=
    if totalSamples = 0 then none else some (totalTime / (totalSamples : ℚ))
  let totalTimeMap := computeTotalTime profile.nodes nm maps.1
  let functionStats :=
    aggregateFunctionStats profile.nodes maps.1 totalTimeMap maps.2 totalTime nm
  match profile.nodes.head? with
  | none => none
  | some rootNode =>
    match buildCallTree rootNode nm maps.1 totalTimeMap totalTime
        (profile.nodes.length + 1) with
    | none => none
    | some callTree =>
      some
        { totalTime := totalTime
          totalSamples := totalSamples
          sampleInterval := sampleInterval
          functionStats := functionStats
          callTree := callTree
          hotspots :=
            extractHotspots functionStats options.hotspotThreshold options.maxHotspots
          criticalPaths := findCriticalPaths callTree options.maxPaths
          startTime := profile.startTime
          endTime := profile.endTime }

/-! ### Parser-level models (src/parser.ts lines 93-161) -/

/-- rebuildChildrenFromParent (parser.ts lines 132-161): three passes over
the node table. -/
def rebuildChildrenFromParent (nodes : List V8Node) : List V8Node :=
  let m0 : JMap ℕ V8Node :=
    nodes.foldl (fun m node => jSet m node.id { node with children := [] }) []
  let m1 :=
    nodes.foldl
      (fun m node =>
        match node.parent with
        | none => m
        | some pid =>
          match jGet m pid with
          | none => m
          | some parent =>
            if node.id ∈ parent.children then m
            else jSet m pid { parent with children := parent.children ++ [node.id] })
      m0
  let m2 :=
    nodes.foldl
      (fun m node =>
        match jGet m node.id with
        | none => m
        | some rebuilt =>
          if node.children.isEmpty then m
          else
            jSet m node.id
              { rebuilt with
                children := (rebuilt.children ++ node.children).foldl setAdd [] })
      m1
  jValues m2

/-- A logical call tree: the payload of the legacy head-based format, for
inputs whose nodes carry explicit call frames. -/
inductive HeadTree where
  | node (callFrame : V8CallFrame) (hitCount : ℕ) (children : List HeadTree)

mutual

/-- The recursive `traverse(node, parentId)` of `linearizeHeadBasedTree`
(parser.ts lines 97-122): ids are assigned preorder starting at 1, but
each node is pushed onto the output array after its children
(postorder). -/
def linNode : HeadTree → Option ℕ → ℕ → (List V8Node × ℕ × ℕ)
  | .node cf hc children, parentId, nextId =>
    let res := linList children nextId (nextId + 1)
    (res.1 ++
        [{ id := nextId, callFrame := cf, hitCount := hc, children := res.2.1,
           parent := parentId }],
      nextId, res.2.2)
termination_by t _ _ => sizeOf t

/-- `node.children.map((child) => traverse(child, id))`. -/
def linList : List HeadTree → ℕ → ℕ → (List V8Node × List ℕ × ℕ)
  | [], _, nextId => ([], [], nextId)
  | c :: cs, parentId, nextId =>
    let r1 := linNode c (some parentId) nextId
    let r2 := linList cs parentId r1.2.2
    (r1.1 ++ r2.1, r1.2.1 :: r2.2.1, r2.2.2)
termination_by l _ _ => sizeOf l

end

/-- linearizeHeadBasedTree (parser.ts lines 93-126). -/
def linearizeHeadBasedTree (head : HeadTree) : List V8Node :=
  (linNode head none 1).1

mutual

/-- Modelled from the spec: the "equivalent flat node-table
serialization" of the same logical tree that claim C3 compares against —
the standard V8 layout listing each node before its children (preorder),
with the same preorder id assignment and the same parent/children links
as `linearizeHeadBasedTree` produces. -/
def flatNode : HeadTree → Option ℕ → ℕ → (List V8Node × ℕ × ℕ)
  | .node cf hc children, parentId, nextId =>
    let res := flatList children nextId (nextId + 1)
    ({ id := nextId, callFrame := cf, hitCount := hc, children := res.2.1,
        parent := parentId } :: res.1,
      nextId, res.2.2)
termination_by t _ _ => sizeOf t

/-- Modelled from the spec: preorder serialization of a forest of
subtrees, threading the id counter. -/
def flatList : List HeadTree → ℕ → ℕ → (List V8Node × List ℕ × ℕ)
  | [], _, nextId => ([], [], nextId)
  | c :: cs, parentId, nextId =>
    let r1 := flatNode c (some parentId) nextId
    let r2 := flatList cs parentId r1.2.2
    (r1.1 ++ r2.1, r1.2.1 :: r2.2.1, r2.2.2)
termination_by l _ _ => sizeOf l

end

/-- Modelled from the spec: flat node-table serialization of a logical
tree, root first. -/
def flatSerialize (head : HeadTree) : List V8Node :=
  (flatNode head none 1).1

/-- The parse pipeline applied to a legacy head-based input carrying the
given samples and deltas (parser.ts lines 62-87: linearize, then rebuild
children; start/end times default to 0). -/
def parseLegacyProfile (head : HeadTree) (samples : List ℕ)
    (timeDeltas : List ℚ) : V8Profile :=
  { startTime := 0
    endTime := 0
    nodes := rebuildChildrenFromParent (linearizeHeadBasedTree head)
    samples := samples
    timeDeltas := timeDeltas }

/-- The parse pipeline applied to the equivalent flat node-table input
(parser.ts lines 67-87: validation passes, then rebuild children). -/
def parseFlatProfile (head : HeadTree) (samples : List ℕ)
    (timeDeltas : List ℚ) : V8Profile :=
  { startTime := 0
    endTime := 0
    nodes := rebuildChildrenFromParent (flatSerialize head)
    samples := samples
    timeDeltas := timeDeltas }

/-! ### JSON-level model of parseProfile (src/parser.ts lines 33-87)

The byte-level stages (file reading, gzip sniffing, `JSON.parse`) are
abstracted into the input `Option Json`: `none` is un-parseable input
text, `some j` is the parsed JSON value.  JS property access is modelled
by `jprop`, which throws (a TypeError) exactly when the receiver is
`undefined` or `null`; undefined is `none` in the value type `JVal`. -/

/-- A parsed JSON value.  Objects are as produced by `JSON.parse`:
duplicate keys are already collapsed, so first-match lookup is exact. -/
inductive Json where
  | null
  | bool (b : Bool)
  | num (q : ℚ)
  | str (s : String)
  | arr (elems : List Json)
  | obj (fields : List (String × Json))

/-- A JS value during parsing: `none` is `undefined`. -/
abbrev JVal := Option Json

/-- The error taxonomy of the parse phase: `invalidEncoding` is the
"Invalid JSON in profile" error, `malformedProfile f` is the
"Invalid profile: missing or invalid ..." error naming field `f`, and
`typeError` is an uncaught JS TypeError (property access on
null/undefined, or calling `.find` on a non-array). -/
inductive ParseError where
  | invalidEncoding
  | malformedProfile (field : String)
  | typeError
deriving DecidableEq

/-- JS truthiness.  (NaN, the one other falsy number, is not
representable in the rational model and never arises here.) -/
def truthy : JVal → Bool
  | none => false
  | some .null => false
  | some (.bool b) => b
  | some (.num q) => !(q == 0)
  | some (.str s) => !(s == "")
  | some (.arr _) => true
  | some (.obj _) => true

/-- JS `x || d` for a default literal `d`. -/
def jOr (v : JVal) (d : Json) : Json :=
  match v with
  | some j => if truthy (some j) then j else d
  | none => d

/-- `Array.isArray`. -/
def isArray : JVal → Bool
  | some (.arr _) => true
  | _ => false

/-- Plain JS property access `v.k`: a TypeError on null/undefined,
`undefined` on primitives and missing keys. -/
def jprop : JVal → String → Except ParseError JVal
  | none, _ => .error .typeError
  | some .null, _ => .error .typeError
  | some (.obj fields), k => .ok ((fields.find? fun p => p.1 == k).map (·.2))
  | some _, _ => .ok none

/-- Optional-chained access `v?.k`: `undefined` instead of a throw. -/
def jpropOpt : JVal → String → JVal
  | none, _ => none
  | some .null, _ => none
  | some (.obj fields), k => (fields.find? fun p => p.1 == k).map (·.2)
  | some _, _ => none

/-- The find predicate
`event.name === 'CpuProfile' || event.args?.data?.cpuProfile`
(parser.ts lines 45-47 and 52-55). -/
def evtMatches (evt : Json) : Except ParseError Bool := do
  let nameVal ← jprop (some evt) "name"
  if (match nameVal with | some (.str s) => s == "CpuProfile" | _ => false) then
    pure true
  else do
    let args ← jprop (some evt) "args"
    pure (truthy (jpropOpt (jpropOpt args "data") "cpuProfile"))

/-- `events.find(...)` with the predicate above. -/
def findCpuProfileEvent : List Json → Except ParseError (Option Json)
  | [] => .ok none
  | evt :: rest => do
    let b ← evtMatches evt
    if b then pure (some evt) else findCpuProfileEvent rest

/-- `cpuProfileEvent.args?.data?.cpuProfile || cpuProfileEvent.args?.data`
(parser.ts lines 49 and 57). -/
def substituteEvent (evt : Json) : Except ParseError JVal := do
  let args ← jprop (some evt) "args"
  if truthy (jpropOpt (jpropOpt args "data") "cpuProfile") then
    pure (jpropOpt (jpropOpt args "data") "cpuProfile")
  else
    pure (jpropOpt args "data")

/-- The Chromium-trace unwrap stage (parser.ts lines 43-59). -/
def unwrapTrace (parsed : Json) : Except ParseError JVal :=
  match parsed with
  | .arr events => do
    let evt ← findCpuProfileEvent events
    match evt with
    | some e => substituteEvent e
    | none => pure (some parsed)
  | _ => do
    let te ← jprop (some parsed) "traceEvents"
    if truthy te then
      match te with
      | some (.arr events) => do
        let evt ← findCpuProfileEvent events
        match evt with
        | some e => substituteEvent e
        | none => pure (some parsed)
      | _ => .error .typeError
    else pure (some parsed)

/-- A linearized node object as pushed by the JSON-level
`linearizeHeadBasedTree` (parser.ts lines 99-113). -/
def mkNodeJson (id : ℕ) (cf : Json) (hc : JVal) (parentId : Option ℕ)
    (childIds : List ℕ) : Json :=
  Json.obj
    ([("id", Json.num id), ("callFrame", cf), ("hitCount", jOr hc (.num 0)),
        ("children", Json.arr (childIds.map fun i => Json.num i))] ++
      (match parentId with
       | some p => [("parent", Json.num p)]
       | none => []))

theorem sizeOf_jprop_field (j : Json) (k : String) (v : Json)
    (h : jprop (some j) k = .ok (some v)) : sizeOf v < sizeOf j := by
  cases j with
  | obj fields =>
    simp only [jprop, Except.ok.injEq, Option.map_eq_some'] at h
    rcases h with ⟨p, hp, hv⟩
    have hmem := List.mem_of_find?_eq_some hp
    have h1 := List.sizeOf_lt_of_mem hmem
    have h2 : sizeOf v < sizeOf p := by
      cases p with
      | mk a b =>
        simp only [Prod.mk.sizeOf_spec]
        simp only at hv
        subst hv
        omega
    have h3 : sizeOf (Json.obj fields) = 1 + sizeOf fields := by
      simp [Json.obj.sizeOf_spec]
    omega
  | null => simp [jprop] at h
  | bool b => simp [jprop] at h
  | num q => simp [jprop] at h
  | str s => simp [jprop] at h
  | arr elems => simp [jprop] at h

theorem sizeOf_jpropOpt_field (j : Json) (k : String) (v : Json)
    (h : jpropOpt (some j) k = some v) : sizeOf v < sizeOf j := by
  cases j with
  | obj fields =>
    simp only [jpropOpt, Option.map_eq_some'] at h
    rcases h with ⟨p, hp, hv⟩
    have hmem := List.mem_of_find?_eq_some hp
    have h1 := List.sizeOf_lt_of_mem hmem
    have h2 : sizeOf v < sizeOf p := by
      cases p with
      | mk a b =>
        simp only [Prod.mk.sizeOf_spec]
        simp only at hv
        subst hv
        omega
    have h3 : sizeOf (Json.obj fields) = 1 + sizeOf fields := by
      simp [Json.obj.sizeOf_spec]
    omega
  | null => simp [jpropOpt] at h
  | bool b => simp [jpropOpt] at h
  | num q => simp [jpropOpt] at h
  | str s => simp [jpropOpt] at h
  | arr elems => simp [jpropOpt] at h

/-- The children list of a raw JSON node, empty unless the `children`
property is an array (`node.children && Array.isArray(node.children)`,
parser.ts line 116; an absent or non-array value leaves the children
empty, exactly as mapping over nothing does).  `jpropOpt` agrees with
the source's plain access here, since the node itself was already
accessed successfully. -/
def jChildArr (node : Json) : List Json :=
  match jpropOpt (some node) "children" with
  | some (.arr cs) => cs
  | _ => []

theorem sizeOf_mem_jChildArr (node c : Json) (hc : c ∈ jChildArr node) :
    sizeOf c < sizeOf node := by
  unfold jChildArr at hc
  split at hc
  next cs hav =>
    have h1 := sizeOf_jpropOpt_field node "children" (.arr cs) hav
    have h2 := List.sizeOf_lt_of_mem hc
    simp only [Json.arr.sizeOf_spec] at h1
    omega
  next => simp at hc

mutual

/-- The `node.callFrame || {...}` default of `traverse` (parser.ts lines
101-107). -/
def linCallFrame (cfVal fn url ln col : JVal) : Json :=
  if truthy cfVal then cfVal.getD .null
  else
    Json.obj
      [("functionName", jOr fn (.str "(unknown)")), ("scriptId", .str "0"),
        ("url", jOr url (.str "")), ("lineNumber", jOr ln (.num 0)),
        ("columnNumber", jOr col (.num 0))]

/-- The JSON-level `traverse(node, parentId)` of
`linearizeHeadBasedTree` applied to raw JSON values (parser.ts lines
97-122): throws a TypeError when a visited node is null or undefined (any
property access then fails, collapsed here into the catch-all branch). -/
def linJsonNode (node : Json) (parentId : Option ℕ) (nextId : ℕ) :
    Except ParseError (List Json × ℕ × ℕ) :=
  match jprop (some node) "callFrame", jprop (some node) "functionName",
      jprop (some node) "url", jprop (some node) "lineNumber",
      jprop (some node) "columnNumber", jprop (some node) "hitCount" with
  | .ok cfVal, .ok fn, .ok url, .ok ln, .ok col, .ok hc =>
    match linJsonKids node (jChildArr node).attach nextId (nextId + 1) with
    | .error e => .error e
    | .ok r =>
      .ok (r.1 ++ [mkNodeJson nextId (linCallFrame cfVal fn url ln col) hc
        parentId r.2.1], nextId, r.2.2)
  | _, _, _, _, _, _ => .error .typeError
termination_by (sizeOf node + 1, 0)

/-- The children map of the JSON-level `traverse`, over the attached
children of the node being linearized. -/
def linJsonKids (node : Json) (l : List {c : Json // c ∈ jChildArr node})
    (parentId : ℕ) (nextId : ℕ) :
    Except ParseError (List Json × List ℕ × ℕ) :=
  match l with
  | [] => .ok ([], [], nextId)
  | c :: cs =>
    match linJsonNode c.1 (some parentId) nextId with
    | .error e => .error e
    | .ok r1 =>
      match linJsonKids node cs parentId r1.2.2 with
      | .error e => .error e
      | .ok r2 => .ok (r1.1 ++ r2.1, r1.2.1 :: r2.2.1, r2.2.2)
termination_by (sizeOf node, l.length + 1)
decreasing_by
  · have h1 := sizeOf_mem_jChildArr node c.1 c.2
    simp only [Prod.lex_def, List.length_cons]
    omega
  · exact Prod.Lex.right _ (by simp [List.length_cons])

end

/-- The JSON-level `linearizeHeadBasedTree(head)` call of parser.ts
line 63. -/
def linearizeHeadJson (head : Json) : Except ParseError (List Json) := do
  let r ← linJsonNode head none 1
  pure r.1

/-- The whole unwrap phase: Chromium-trace container, then head-based
tree (parser.ts lines 43-64).  Returns the working value and the value
of `parsed.nodes` after the head substitution. -/
def unwrapJson (parsed : Json) : Except ParseError (JVal × JVal) := do
  let parsed1 ← unwrapTrace parsed
  let headVal ← jprop parsed1 "head"
  let nodesVal0 ← jprop parsed1 "nodes"
  if truthy headVal && !(truthy nodesVal0) then do
    let lin ← linearizeHeadJson (headVal.getD .null)
    pure (parsed1, some (.arr lin))
  else
    pure (parsed1, nodesVal0)

/-- The validated pieces returned by `parseProfile` (the subsequent
`rebuildChildrenFromParent` call, modelled at the typed level above,
never fails and does not affect the error surface claim C8 is about). -/
structure JsonProfileParts where
  startTime : Json
  endTime : Json
  nodes : JVal
  samples : JVal
  timeDeltas : JVal

/-- The first failing check of the validation phase (parser.ts lines
67-75), as a pure function of the unwrapped values; lookups use
`jpropOpt`, which agrees with the plain access of the source whenever the
unwrap phase succeeded (the working value is then not null/undefined). -/
def firstMissing (parsed1 nodesVal : JVal) : Option String :=
  if !(truthy nodesVal) || !(isArray nodesVal) then some "nodes"
  else if !(truthy (jpropOpt parsed1 "samples")) ||
      !(isArray (jpropOpt parsed1 "samples")) then some "samples"
  else if !(truthy (jpropOpt parsed1 "timeDeltas")) ||
      !(isArray (jpropOpt parsed1 "timeDeltas")) then some "timeDeltas"
  else none

/-- The validation phase and result assembly (parser.ts lines 67-87). -/
def validateJson (parsed1 nodesVal : JVal) :
    Except ParseError JsonProfileParts := do
  if !(truthy nodesVal) || !(isArray nodesVal) then
    Except.error (.malformedProfile "nodes")
  else do
    let samplesVal ← jprop parsed1 "samples"
    if !(truthy samplesVal) || !(isArray samplesVal) then
      Except.error (.malformedProfile "samples")
    else do
      let deltasVal ← jprop parsed1 "timeDeltas"
      if !(truthy deltasVal) || !(isArray deltasVal) then
        Except.error (.malformedProfile "timeDeltas")
      else do
        let st ← jprop parsed1 "startTime"
        let et ← jprop parsed1 "endTime"
        pure
          { startTime := jOr st (.num 0)
            endTime := jOr et (.num 0)
            nodes := nodesVal
            samples := samplesVal
            timeDeltas := deltasVal }

/-- parseProfile from the JSON stage on: `none` input is un-parseable
text (the `Invalid JSON in profile` throw of line 39), `some j` is the
parsed value fed to the unwrap and validation phases. -/
def parseProfileJson : Option Json → Except ParseError JsonProfileParts
  | none => .error .invalidEncoding
  | some parsed => do
    let pr ← unwrapJson parsed
    validateJson pr.1 pr.2

/-! ### Tree witnesses

`NTree` is the shape of a well-formed node table: the spec's data model
requires the table to be a rooted tree.  `isUnfold nm t` says the node
map `nm` unfolds, from the root of `t`, to exactly the tree `t`. -/

inductive NTree where
  | node (id : ℕ) (children : List NTree)

def NTree.rootId : NTree → ℕ
  | .node i _ => i

def NTree.childList : NTree → List NTree
  | .node _ cs => cs

def NTree.tids : NTree → List ℕ
  | .node i cs => i :: (cs.attach.flatMap fun c => c.1.tids)
termination_by t => sizeOf t
decreasing_by
  have := List.sizeOf_lt_of_mem c.2
  simp only [NTree.node.sizeOf_spec]
  omega

def NTree.subL : NTree → List NTree
  | .node i cs => .node i cs :: (cs.attach.flatMap fun c => c.1.subL)
termination_by t => sizeOf t
decreasing_by
  have := List.sizeOf_lt_of_mem c.2
  simp only [NTree.node.sizeOf_spec]
  omega

def NTree.depth : NTree → ℕ
  | .node _ cs => 1 + (cs.attach.map fun c => c.1.depth).foldr max 0
termination_by t => sizeOf t
decreasing_by
  have := List.sizeOf_lt_of_mem c.2
  simp only [NTree.node.sizeOf_spec]
  omega

/-- The total time a faithful recursion computes for the subtree `t`:
self time of the root plus the children's totals. -/
def pureTotal (sm : JMap ℕ ℚ) : NTree → ℚ
  | .node i cs =>
    (jGet sm i).getD 0 + (cs.attach.map fun c => pureTotal sm c.1).sum
termination_by t => sizeOf t
decreasing_by
  have := List.sizeOf_lt_of_mem c.2
  simp only [NTree.node.sizeOf_spec]
  omega

/-- Does the node map unfold, from the root of `t`, to exactly `t`? -/
def isUnfold (nm : JMap ℕ V8Node) : NTree → Bool
  | .node i cs =>
    match jGet nm i with
    | none => false
    | some n =>
      (n.children == cs.map NTree.rootId) && (cs.attach.all fun c => isUnfold nm c.1)
termination_by t => sizeOf t
decreasing_by
  have := List.sizeOf_lt_of_mem c.2
  simp only [NTree.node.sizeOf_spec]
  omega

theorem NTree.strongInd (P : NTree → Prop)
    (h : ∀ i cs, (∀ c ∈ cs, P c) → P (.node i cs)) : ∀ t, P t := fun t =>
  match t with
  | .node i cs => h i cs fun c hc => NTree.strongInd P h c
termination_by t => sizeOf t
decreasing_by
  have := List.sizeOf_lt_of_mem hc
  simp only [NTree.node.sizeOf_spec]
  omega

theorem attach_flatMap_eq (l : List α) (f : α → List β) :
    (l.attach.flatMap fun c => f c.1) = l.flatMap f := by
  induction l with
  | nil => rfl
  | cons x xs ih => simp [List.attach_cons, List.flatMap_cons, List.flatMap_map, ih]

theorem attach_map_eq (l : List α) (f : α → β) :
    (l.attach.map fun c => f c.1) = l.map f := by
  induction l with
  | nil => rfl
  | cons x xs ih => simp [List.attach_cons, List.map_map, ih]

theorem attach_all_eq (l : List α) (f : α → Bool) :
    (l.attach.all fun c => f c.1) = l.all f := by
  rw [Bool.eq_iff_iff]
  simp only [List.all_eq_true, List.mem_attach, true_implies, Subtype.forall]

theorem tids_node (i : ℕ) (cs : List NTree) :
    (NTree.node i cs).tids = i :: cs.flatMap NTree.tids := by
  rw [NTree.tids, attach_flatMap_eq]

theorem subL_node (i : ℕ) (cs : List NTree) :
    (NTree.node i cs).subL = NTree.node i cs :: cs.flatMap NTree.subL := by
  rw [NTree.subL, attach_flatMap_eq]

theorem depth_node (i : ℕ) (cs : List NTree) :
    (NTree.node i cs).depth = 1 + (cs.map NTree.depth).foldr max 0 := by
  rw [NTree.depth, attach_map_eq]

theorem pureTotal_node (sm : JMap ℕ ℚ) (i : ℕ) (cs : List NTree) :
    pureTotal sm (NTree.node i cs) =
      (jGet sm i).getD 0 + (cs.map (pureTotal sm)).sum := by
  rw [pureTotal, attach_map_eq]

theorem isUnfold_node (nm : JMap ℕ V8Node) (i : ℕ) (cs : List NTree) :
    isUnfold nm (NTree.node i cs) = true ↔
      ∃ n, jGet nm i = some n ∧ n.children = cs.map NTree.rootId ∧
        ∀ c ∈ cs, isUnfold nm c = true := by
  rw [isUnfold]
  rcases h : jGet nm i with _ | n
  · simp [h]
  · rw [attach_all_eq]
    simp [h, List.all_eq_true]

theorem mem_subL_self (t : NTree) : t ∈ t.subL := by
  cases t with
  | node i cs => rw [subL_node]; exact List.mem_cons_self _ _

theorem rootId_mem_tids (t : NTree) : t.rootId ∈ t.tids := by
  cases t with
  | node i cs => rw [tids_node]; exact List.mem_cons_self _ _

theorem mem_flatMap_of_mem {l : List α} {f : α → List β} {c : α} {x : β}
    (hc : c ∈ l) (hx : x ∈ f c) : x ∈ l.flatMap f :=
  List.mem_flatMap.mpr ⟨c, hc, hx⟩

theorem sublist_flatMap_of_mem {l : List α} {f : α → List β} {c : α}
    (hc : c ∈ l) : (f c).Sublist (l.flatMap f) := by
  induction l with
  | nil => simp at hc
  | cons x xs ih =>
    rw [List.flatMap_cons]
    rcases List.mem_cons.mp hc with rfl | hc
    · exact List.sublist_append_left _ _
    · exact (ih hc).trans (List.sublist_append_right _ _)

theorem subL_subset (t : NTree) : ∀ s ∈ t.subL, s.subL ⊆ t.subL := by
  induction t using NTree.strongInd with
  | _ i cs ih =>
    intro s hs
    rw [subL_node] at hs
    rcases List.mem_cons.mp hs with rfl | hs
    · exact fun x hx => hx
    · rcases List.mem_flatMap.mp hs with ⟨c, hc, hsc⟩
      intro x hx
      rw [subL_node]
      exact List.mem_cons_of_mem _
        (mem_flatMap_of_mem hc (ih c hc s hsc hx))

theorem childList_mem_subL {t s : NTree} (hs : s ∈ t.subL)
    {c : NTree} (hc : c ∈ s.childList) : c ∈ t.subL := by
  apply subL_subset t s hs
  cases s with
  | node i cs =>
    rw [subL_node]
    exact List.mem_cons_of_mem _ (mem_flatMap_of_mem hc (mem_subL_self c))

theorem subL_map_rootId (t : NTree) : t.subL.map NTree.rootId = t.tids := by
  induction t using NTree.strongInd with
  | _ i cs ih =>
    rw [subL_node, tids_node, List.map_cons, List.map_flatMap]
    have htail : (cs.flatMap fun c => c.subL.map NTree.rootId) = cs.flatMap NTree.tids := by
      induction cs with
      | nil => rfl
      | cons c cs' ihl =>
        rw [List.flatMap_cons, List.flatMap_cons, ih c (List.mem_cons_self c cs'),
          ihl fun x hx => ih x (List.mem_cons_of_mem c hx)]
    rw [htail]
    rfl

theorem tids_sublist_of_mem_subL (t : NTree) :
    ∀ s ∈ t.subL, s.tids.Sublist t.tids := by
  induction t using NTree.strongInd with
  | _ i cs ih =>
    intro s hs
    rw [subL_node] at hs
    rcases List.mem_cons.mp hs with rfl | hs
    · exact List.Sublist.refl _
    · rcases List.mem_flatMap.mp hs with ⟨c, hc, hsc⟩
      rw [tids_node]
      exact ((ih c hc s hsc).trans (sublist_flatMap_of_mem hc)).trans
        (List.sublist_cons_self _ _)

theorem tids_nodup_of_mem_subL {t : NTree} (hnd : t.tids.Nodup)
    {s : NTree} (hs : s ∈ t.subL) : s.tids.Nodup :=
  (tids_sublist_of_mem_subL t s hs).nodup hnd

theorem isUnfold_of_mem_subL {nm : JMap ℕ V8Node} {t : NTree}
    (hu : isUnfold nm t = true) : ∀ s ∈ t.subL, isUnfold nm s = true := by
  induction t using NTree.strongInd with
  | _ i cs ih =>
    intro s hs
    rw [subL_node] at hs
    rcases List.mem_cons.mp hs with rfl | hs
    · exact hu
    · rcases List.mem_flatMap.mp hs with ⟨c, hc, hsc⟩
      rcases (isUnfold_node nm i cs).mp hu with ⟨n, _, _, hcs⟩
      exact ih c hc (hcs c hc) s hsc

theorem subL_rootId_inj {t : NTree} (hnd : t.tids.Nodup)
    {s1 s2 : NTree} (h1 : s1 ∈ t.subL) (h2 : s2 ∈ t.subL)
    (hr : s1.rootId = s2.rootId) : s1 = s2 := by
  have hmap : (t.subL.map NTree.rootId).Nodup := by
    rw [subL_map_rootId]; exact hnd
  exact List.inj_on_of_nodup_map hmap h1 h2 hr

theorem exists_subtree_of_mem_tids {t : NTree} {j : ℕ} (hj : j ∈ t.tids) :
    ∃ s ∈ t.subL, s.rootId = j := by
  rw [← subL_map_rootId] at hj
  rcases List.mem_map.mp hj with ⟨s, hs, hr⟩
  exact ⟨s, hs, hr⟩

theorem mem_tids_of_mem_subL {t s : NTree} (hs : s ∈ t.subL) :
    s.rootId ∈ t.tids := by
  rw [← subL_map_rootId]
  exact List.mem_map.mpr ⟨s, hs, rfl⟩

theorem pureTotal_eq_sum_tids (sm : JMap ℕ ℚ) (t : NTree) :
    pureTotal sm t = (t.tids.map fun j => (jGet sm j).getD 0).sum := by
  induction t using NTree.strongInd with
  | _ i cs ih =>
    rw [pureTotal_node, tids_node, List.map_cons, List.sum_cons]
    congr 1
    induction cs with
    | nil => simp
    | cons c cs ihl =>
      rw [List.map_cons, List.sum_cons, List.flatMap_cons, List.map_append,
        List.sum_append, ih c (List.mem_cons_self c cs),
        ihl fun x hx => ih x (List.mem_cons_of_mem c hx)]

theorem depth_le_tids_length (t : NTree) : t.depth ≤ t.tids.length := by
  induction t using NTree.strongInd with
  | _ i cs ih =>
    rw [depth_node, tids_node, List.length_cons]
    have : (cs.map NTree.depth).foldr max 0 ≤ (cs.flatMap NTree.tids).length := by
      induction cs with
      | nil => simp
      | cons c cs ihl =>
        rw [List.map_cons, List.foldr_cons, List.flatMap_cons, List.length_append]
        have h1 : c.depth ≤ c.tids.length := ih c (List.mem_cons_self c cs)
        have h2 : (cs.map NTree.depth).foldr max 0 ≤ (cs.flatMap NTree.tids).length :=
          ihl fun x hx => ih x (List.mem_cons_of_mem c hx)
        exact max_le (le_trans h1 (by omega)) (by omega)
    omega

/-! ### Properties of the computeTotalTime traversal -/

/-- The basic state invariant: every id with a total-time entry has been
visited. -/
def TTInv (st : TTState) : Prop := ∀ k, (jGet st.tmap k).isSome → k ∈ st.visited

theorem goNode_props (nm : JMap ℕ V8Node) (sm : JMap ℕ ℚ) : ∀ fuel : ℕ,
    (∀ id st y st', goNode nm sm fuel id st = some (y, st') →
      (∀ k ∈ st.visited, k ∈ st'.visited) ∧
      (∀ k ∈ st.visited, jGet st'.tmap k = jGet st.tmap k) ∧
      id ∈ st'.visited ∧
      (st.visited.Nodup → st'.visited.Nodup) ∧
      (TTInv st → TTInv st' ∧
        ∀ k ∈ st'.visited, k ∉ st.visited → (jGet nm k).isSome →
          (jGet st'.tmap k).isSome)) ∧
    (∀ cs st y st', goChildren nm sm fuel cs st = some (y, st') →
      (∀ k ∈ st.visited, k ∈ st'.visited) ∧
      (∀ k ∈ st.visited, jGet st'.tmap k = jGet st.tmap k) ∧
      (st.visited.Nodup → st'.visited.Nodup) ∧
      (TTInv st → TTInv st' ∧
        ∀ k ∈ st'.visited, k ∉ st.visited → (jGet nm k).isSome →
          (jGet st'.tmap k).isSome)) := by
  intro fuel
  induction fuel with
  | zero =>
    constructor
    · intro id st y st' h
      simp [goNode] at h
    · intro cs st y st' h
      cases cs with
      | nil =>
        rw [goChildren] at h
        simp only [Option.some.injEq, Prod.mk.injEq] at h
        rcases h with ⟨_, rfl⟩
        exact ⟨fun k hk => hk, fun k _ => rfl, fun hnd => hnd,
          fun hI => ⟨hI, fun k hk1 hk2 _ => absurd hk1 hk2⟩⟩
      | cons c cs' =>
        rw [goChildren] at h
        simp [goNode] at h
  | succ fuel ih =>
    obtain ⟨ihN, ihC⟩ := ih
    have hN : ∀ id st y st', goNode nm sm (fuel + 1) id st = some (y, st') →
        (∀ k ∈ st.visited, k ∈ st'.visited) ∧
        (∀ k ∈ st.visited, jGet st'.tmap k = jGet st.tmap k) ∧
        id ∈ st'.visited ∧
        (st.visited.Nodup → st'.visited.Nodup) ∧
        (TTInv st → TTInv st' ∧
          ∀ k ∈ st'.visited, k ∉ st.visited → (jGet nm k).isSome →
            (jGet st'.tmap k).isSome) := by
      intro id st y st' h
      rw [goNode] at h
      by_cases hv : id ∈ st.visited
      · rw [if_pos hv] at h
        simp only [Option.some.injEq, Prod.mk.injEq] at h
        rcases h with ⟨_, rfl⟩
        exact ⟨fun k hk => hk, fun k _ => rfl, hv, fun hnd => hnd,
          fun hI => ⟨hI, fun k hk1 hk2 _ => absurd hk1 hk2⟩⟩
      · rw [if_neg hv] at h
        simp only at h
        split at h
        next hnm =>
          simp only [Option.some.injEq, Prod.mk.injEq] at h
          rcases h with ⟨_, rfl⟩
          refine ⟨fun k hk => List.mem_cons_of_mem id hk, fun k _ => rfl,
            List.mem_cons_self id _, fun hnd => List.nodup_cons.mpr ⟨hv, hnd⟩,
            fun hI => ⟨fun k hk => List.mem_cons_of_mem id (hI k hk), ?_⟩⟩
          intro k hk1 hk2 hk3
          rcases List.mem_cons.mp hk1 with rfl | hk1
          · rw [hnm] at hk3; simp at hk3
          · exact absurd hk1 hk2
        next node hnm =>
          split at h
          next hgc => simp at h
          next csum st2 hgc =>
            simp only [Option.some.injEq, Prod.mk.injEq] at h
            rcases h with ⟨_, rfl⟩
            obtain ⟨hm1, hm2, hm3, hm4⟩ := ihC node.children _ _ _ hgc
            have hidv : id ∈ st2.visited :=
              hm1 id (List.mem_cons_self id st.visited)
            refine ⟨?_, ?_, ?_, ?_, ?_⟩
            · intro k hk
              exact hm1 k (List.mem_cons_of_mem id hk)
            · intro k hk
              have hkid : ¬ k = id := fun he => hv (he ▸ hk)
              show jGet (jSet st2.tmap id _) k = jGet st.tmap k
              rw [jGet_jSet_ne _ _ _ _ hkid]
              exact hm2 k (List.mem_cons_of_mem id hk)
            · exact hidv
            · intro hnd
              exact hm3 (List.nodup_cons.mpr ⟨hv, hnd⟩)
            · intro hI
              have hI1 : TTInv ⟨st.tmap, id :: st.visited⟩ :=
                fun k hk => List.mem_cons_of_mem id (hI k hk)
              obtain ⟨hI2, hE2⟩ := hm4 hI1
              constructor
              · intro k hk
                by_cases hkid : k = id
                · subst hkid; exact hidv
                · rw [jGet_jSet_ne _ _ _ _ hkid] at hk
                  exact hI2 k hk
              · intro k hk1 hk2 hk3
                by_cases hkid : k = id
                · subst hkid
                  rw [jGet_jSet_self]
                  rfl
                · rw [jGet_jSet_ne _ _ _ _ hkid]
                  refine hE2 k hk1 ?_ hk3
                  intro hk4
                  rcases List.mem_cons.mp hk4 with he | hk5
                  · exact hkid he
                  · exact hk2 hk5
    refine ⟨hN, ?_⟩
    intro cs
    induction cs with
    | nil =>
      intro st y st' h
      rw [goChildren] at h
      simp only [Option.some.injEq, Prod.mk.injEq] at h
      rcases h with ⟨_, rfl⟩
      exact ⟨fun k hk => hk, fun k _ => rfl, fun hnd => hnd,
        fun hI => ⟨hI, fun k hk1 hk2 _ => absurd hk1 hk2⟩⟩
    | cons c cs' ihl =>
      intro st y st' h
      rw [goChildren] at h
      split at h
      next h1 => simp at h
      next t st1 h1 =>
        split at h
        next h2 => simp at h
        next rest st2 h2 =>
          simp only [Option.some.injEq, Prod.mk.injEq] at h
          rcases h with ⟨_, rfl⟩
          obtain ⟨ha1, ha2, _, ha4, ha5⟩ := hN c st t st1 h1
          obtain ⟨hb1, hb2, hb4, hb5⟩ := ihl st1 rest st2 h2
          refine ⟨fun k hk => hb1 k (ha1 k hk),
            fun k hk => (hb2 k (ha1 k hk)).trans (ha2 k hk),
            fun hnd => hb4 (ha4 hnd), ?_⟩
          intro hI
          obtain ⟨hIa, hEa⟩ := ha5 hI
          obtain ⟨hIb, hEb⟩ := hb5 hIa
          refine ⟨hIb, ?_⟩
          intro k hk1 hk2 hk3
          by_cases hk4 : k ∈ st1.visited
          · have := hEa k hk4 hk2 hk3
            rcases hsome : jGet st1.tmap k with _ | v
            · rw [hsome] at this; simp at this
            · rw [hb2 k hk4, hsome]
              rfl
          · exact hEb k hk1 hk4 hk3

/-- The number of universe ids not yet visited: the termination measure
of the JS recursion. -/
def unvisitedCount (univ : List ℕ) (st : TTState) : ℕ :=
  (univ.filter fun x => decide (¬ x ∈ st.visited)).length

theorem filter_length_mono (l : List α) (p q : α → Bool)
    (h : ∀ x ∈ l, p x = true → q x = true) :
    (l.filter p).length ≤ (l.filter q).length := by
  induction l with
  | nil => simp
  | cons y ys ih =>
    have ih2 := ih fun x hx => h x (List.mem_cons_of_mem y hx)
    rw [List.filter_cons, List.filter_cons]
    rcases hp : p y with _ | _
    · rcases hq : q y with _ | _
      · simpa using ih2
      · simp only [List.length_cons]
        exact le_trans (by simpa using ih2) (Nat.le_succ _)
    · rw [h y (List.mem_cons_self y ys) hp]
      simpa using Nat.succ_le_succ ih2

theorem filter_length_strict (l : List α) (p q : α → Bool)
    (h : ∀ x ∈ l, p x = true → q x = true)
    (a : α) (ha : a ∈ l) (hpa : p a = false) (hqa : q a = true) :
    (l.filter p).length < (l.filter q).length := by
  induction l with
  | nil => simp at ha
  | cons y ys ih =>
    have hmono := filter_length_mono ys p q fun x hx => h x (List.mem_cons_of_mem y hx)
    rw [List.filter_cons, List.filter_cons]
    rcases List.mem_cons.mp ha with rfl | ha'
    · simp only [hpa, hqa, Bool.false_eq_true, if_false, if_true, List.length_cons]
      omega
    · have ih2 := ih (fun x hx => h x (List.mem_cons_of_mem y hx)) ha'
      rcases hp : p y with _ | _
      · rcases hq : q y with _ | _
        · simpa using ih2
        · simp only [List.length_cons]
          exact lt_of_lt_of_le (by simpa using ih2) (Nat.le_succ _)
      · rw [h y (List.mem_cons_self y ys) hp]
        simpa using Nat.succ_lt_succ ih2

theorem unvisitedCount_le (univ : List ℕ) (v1 v2 : List ℕ)
    (h : ∀ x ∈ v1, x ∈ v2) :
    (univ.filter fun x => decide (¬ x ∈ v2)).length ≤
      (univ.filter fun x => decide (¬ x ∈ v1)).length := by
  apply filter_length_mono
  intro x _ hx
  have := of_decide_eq_true hx
  exact decide_eq_true fun hm => this (h x hm)

theorem unvisitedCount_lt (univ : List ℕ) (v : List ℕ) (id : ℕ)
    (hid : id ∈ univ) (hnv : id ∉ v) :
    (univ.filter fun x => decide (¬ x ∈ id :: v)).length <
      (univ.filter fun x => decide (¬ x ∈ v)).length := by
  apply filter_length_strict _ _ _ ?_ id hid
  · exact decide_eq_false (not_not_intro (List.mem_cons_self id v))
  · exact decide_eq_true hnv
  · intro x _ hx
    have := of_decide_eq_true hx
    exact decide_eq_true fun hm => this (List.mem_cons_of_mem id hm)

/-- Fuel sufficiency: with more fuel than unvisited universe ids, the
traversal never runs out (the JS recursion terminates). -/
theorem goNode_fuel (nm : JMap ℕ V8Node) (sm : JMap ℕ ℚ) (univ : List ℕ)
    (hC : ∀ k n, jGet nm k = some n → ∀ c ∈ n.children, c ∈ univ) :
    ∀ fuel : ℕ,
    (∀ id st, id ∈ univ → unvisitedCount univ st < fuel →
      (goNode nm sm fuel id st).isSome) ∧
    (∀ cs st, (∀ c ∈ cs, c ∈ univ) → unvisitedCount univ st < fuel →
      (goChildren nm sm fuel cs st).isSome) := by
  intro fuel
  induction fuel with
  | zero =>
    constructor
    · intro id st _ hcnt; omega
    · intro cs st _ hcnt; omega
  | succ fuel ih =>
    obtain ⟨ihN, ihC⟩ := ih
    have hN : ∀ id st, id ∈ univ → unvisitedCount univ st < fuel + 1 →
        (goNode nm sm (fuel + 1) id st).isSome := by
      intro id st hid hcnt
      rw [goNode]
      by_cases hv : id ∈ st.visited
      · rw [if_pos hv]; rfl
      · rw [if_neg hv]
        simp only
        split
        next => rfl
        next node hnm =>
          have hcs : ∀ c ∈ node.children, c ∈ univ := hC id node hnm
          have hcnt1 :
              unvisitedCount univ ⟨st.tmap, id :: st.visited⟩ < fuel := by
            have h2 := unvisitedCount_lt univ st.visited id hid hv
            have h3 : unvisitedCount univ ⟨st.tmap, id :: st.visited⟩ =
                (univ.filter fun x => decide (¬ x ∈ id :: st.visited)).length := rfl
            have h4 : unvisitedCount univ st =
                (univ.filter fun x => decide (¬ x ∈ st.visited)).length := rfl
            rw [h3]
            rw [h4] at hcnt
            omega
          have hs := ihC node.children ⟨st.tmap, id :: st.visited⟩ hcs hcnt1
          split
          next hgc => rw [hgc] at hs; simp at hs
          next csum st2 hgc => rfl
    refine ⟨hN, ?_⟩
    intro cs
    induction cs with
    | nil => intro st _ _; rw [goChildren]; rfl
    | cons c cs' ihl =>
      intro st hcs hcnt
      rw [goChildren]
      split
      next hg1 =>
        have h1 := hN c st (hcs c (List.mem_cons_self c cs')) hcnt
        rw [hg1] at h1; simp at h1
      next t st1 hg1 =>
        have hmono := ((goNode_props nm sm (fuel + 1)).1 c st t st1 hg1).1
        have hcnt1 : unvisitedCount univ st1 < fuel + 1 := by
          have h5 := unvisitedCount_le univ st.visited st1.visited hmono
          have h4 : unvisitedCount univ st =
              (univ.filter fun x => decide (¬ x ∈ st.visited)).length := rfl
          have h3 : unvisitedCount univ st1 =
              (univ.filter fun x => decide (¬ x ∈ st1.visited)).length := rfl
          rw [h3]
          rw [h4] at hcnt
          omega
        have h2 := ihl st1 (fun x hx => hcs x (List.mem_cons_of_mem c hx)) hcnt1
        split
        next hg2 => rw [hg2] at h2; simp at h2
        next rest st2 hg2 => rfl

/-! ### The node map as a function -/

theorem jGet_foldl_jSet_of_mem_none (nodes : List V8Node) (m : JMap ℕ V8Node)
    (k : ℕ) (h : ∀ x ∈ nodes, x.id ≠ k) :
    jGet (nodes.foldl (fun m node => jSet m node.id node) m) k = jGet m k := by
  induction nodes generalizing m with
  | nil => rfl
  | cons x xs ih =>
    rw [List.foldl_cons, ih _ fun y hy => h y (List.mem_cons_of_mem x hy),
      jGet_jSet_ne _ _ _ _ fun he => h x (List.mem_cons_self x xs) he.symm]

theorem buildNodeMap_mem (nodes : List V8Node) (k : ℕ) (n : V8Node)
    (h : jGet (buildNodeMap nodes) k = some n) : n ∈ nodes ∧ n.id = k := by
  suffices haux : ∀ (l : List V8Node) (m : JMap ℕ V8Node) (k : ℕ) (n : V8Node),
      jGet (l.foldl (fun m node => jSet m node.id node) m) k = some n →
      (n ∈ l ∧ n.id = k) ∨ jGet m k = some n by
    rcases haux nodes [] k n h with h1 | h1
    · exact h1
    · simp [jGet] at h1
  intro l
  induction l with
  | nil => intro m k n h; exact Or.inr h
  | cons x xs ih =>
    intro m k n h
    rw [List.foldl_cons] at h
    rcases ih _ k n h with h1 | h1
    · exact Or.inl ⟨List.mem_cons_of_mem x h1.1, h1.2⟩
    · by_cases hk : x.id = k
      · subst hk
        rw [jGet_jSet_self] at h1
        cases h1
        exact Or.inl ⟨List.mem_cons_self x xs, rfl⟩
      · rw [jGet_jSet_ne _ _ _ _ fun he => hk he.symm] at h1
        exact Or.inr h1

theorem jGet_jSet_isSome_preserved [DecidableEq κ] (m : JMap κ α) (k k' : κ)
    (v : α) (h : (jGet m k).isSome) : (jGet (jSet m k' v) k).isSome := by
  by_cases hk : k = k'
  · subst hk; rw [jGet_jSet_self]; rfl
  · rw [jGet_jSet_ne _ _ _ _ hk]; exact h

theorem buildNodeMap_isSome (nodes : List V8Node) (n : V8Node)
    (h : n ∈ nodes) : (jGet (buildNodeMap nodes) n.id).isSome := by
  suffices haux : ∀ (l : List V8Node) (m : JMap ℕ V8Node),
      (n ∈ l ∨ (jGet m n.id).isSome) →
      (jGet (l.foldl (fun m node => jSet m node.id node) m) n.id).isSome from
    haux nodes [] (Or.inl h)
  intro l
  induction l with
  | nil =>
    intro m hm
    rcases hm with hm | hm
    · simp at hm
    · exact hm
  | cons x xs ih =>
    intro m hm
    rw [List.foldl_cons]
    rcases hm with hm | hm
    · rcases List.mem_cons.mp hm with rfl | hm
      · exact ih _ (Or.inr (by rw [jGet_jSet_self]; rfl))
      · exact ih _ (Or.inl hm)
    · exact ih _ (Or.inr (jGet_jSet_isSome_preserved _ _ _ _ hm))

theorem buildNodeMap_nodup (nodes : List V8Node)
    (hnd : (nodes.map (·.id)).Nodup) (n : V8Node) (h : n ∈ nodes) :
    jGet (buildNodeMap nodes) n.id = some n := by
  suffices haux : ∀ (l : List V8Node) (m : JMap ℕ V8Node),
      (l.map (·.id)).Nodup → n ∈ l →
      jGet (l.foldl (fun m node => jSet m node.id node) m) n.id = some n from
    haux nodes [] hnd h
  intro l
  induction l with
  | nil => intro m _ hm; simp at hm
  | cons x xs ih =>
    intro m hnd2 hm
    rw [List.foldl_cons]
    rw [List.map_cons] at hnd2
    rcases List.nodup_cons.mp hnd2 with ⟨hx, hxs⟩
    rcases List.mem_cons.mp hm with rfl | hm
    · rw [jGet_foldl_jSet_of_mem_none xs _ n.id
        (fun y hy he => hx (by rw [← he]; exact List.mem_map_of_mem _ hy)),
        jGet_jSet_self]
    · exact ih _ hxs hm

/-! ### computeTotalTime always succeeds and covers the whole table
(claim C10) -/

theorem computeTotalTime_fold (nodes : List V8Node) (sm : JMap ℕ ℚ) :
    ∀ (l : List V8Node) (st : TTState),
      (∀ x ∈ l, x ∈ nodes) →
      st.visited.Nodup → TTInv st →
      (∀ j ∈ st.visited, (jGet (buildNodeMap nodes) j).isSome →
        (jGet st.tmap j).isSome) →
      ∃ st',
        l.foldlM
          (fun st node =>
            (goNode (buildNodeMap nodes) sm (ttFuel nodes) node.id st).map (·.2))
          st = some st' ∧
        st'.visited.Nodup ∧ TTInv st' ∧
        (∀ j ∈ st'.visited, (jGet (buildNodeMap nodes) j).isSome →
          (jGet st'.tmap j).isSome) ∧
        (∀ k ∈ st.visited, k ∈ st'.visited) ∧
        (∀ x ∈ l, x.id ∈ st'.visited) := by
  set nm := buildNodeMap nodes with hnm
  set univA := nodes.map (·.id) ++ nodes.flatMap (·.children) with huA
  have hC : ∀ k n, jGet nm k = some n → ∀ c ∈ n.children, c ∈ univA := by
    intro k n hkn c hc
    rcases buildNodeMap_mem nodes k n hkn with ⟨hmem, _⟩
    exact List.mem_append_right _ (mem_flatMap_of_mem hmem hc)
  intro l
  induction l with
  | nil =>
    intro st _ h1 h2 h3
    exact ⟨st, rfl, h1, h2, h3, fun k hk => hk, by simp⟩
  | cons x xs ih =>
    intro st hl h1 h2 h3
    have hxid : x.id ∈ univA :=
      List.mem_append_left _ (List.mem_map_of_mem _ (hl x (List.mem_cons_self x xs)))
    have hcnt : unvisitedCount univA st < ttFuel nodes := by
      have hle : unvisitedCount univA st ≤ univA.length :=
        List.length_filter_le _ _
      have : ttFuel nodes = univA.length + 1 := rfl
      omega
    have hsome := ((goNode_fuel nm sm univA hC (ttFuel nodes)).1) x.id st hxid hcnt
    cases hg : goNode nm sm (ttFuel nodes) x.id st with
    | none => rw [hg] at hsome; simp at hsome
    | some pr =>
      obtain ⟨y, st1⟩ := pr
      obtain ⟨hp1, hp2, hp3, hp4, hp5⟩ := (goNode_props nm sm (ttFuel nodes)).1 x.id st y st1 hg
      obtain ⟨hI1, hE1⟩ := hp5 h2
      have h31 : ∀ j ∈ st1.visited, (jGet nm j).isSome → (jGet st1.tmap j).isSome := by
        intro j hj hjs
        by_cases hjv : j ∈ st.visited
        · have := h3 j hjv hjs
          rcases hv : jGet st.tmap j with _ | w
          · rw [hv] at this; simp at this
          · rw [hp2 j hjv, hv]; rfl
        · exact hE1 j hj hjv hjs
      obtain ⟨st', hfold, hq1, hq2, hq3, hq4, hq5⟩ :=
        ih st1 (fun z hz => hl z (List.mem_cons_of_mem x hz)) (hp4 h1) hI1 h31
      refine ⟨st', ?_, hq1, hq2, hq3, ?_, ?_⟩
      · rw [List.foldlM_cons, hg]
        simpa using hfold
      · intro k hk
        exact hq4 k (hp1 k hk)
      · intro z hz
        rcases List.mem_cons.mp hz with rfl | hz
        · exact hq4 _ hp3
        · exact hq5 z hz

/-- Claim C10 core: `computeTotalTime` terminates on every node table
(also cyclic or sharing ones) with an entry for every table node id, and
the visited set admits each id at most once. -/
theorem computeTotalTimeSt_total (nodes : List V8Node) (sm : JMap ℕ ℚ) :
    ∃ st, computeTotalTimeSt nodes (buildNodeMap nodes) sm = some st ∧
      st.visited.Nodup ∧
      ∀ n ∈ nodes, (jGet st.tmap n.id).isSome := by
  obtain ⟨st', hfold, h1, _, h3, _, h5⟩ :=
    computeTotalTime_fold nodes sm nodes ⟨[], []⟩ (fun x hx => hx)
      List.nodup_nil (fun k hk => by simp [jGet] at hk) (fun j hj => by simp at hj)
  refine ⟨st', hfold, h1, ?_⟩
  intro n hn
  exact h3 n.id (h5 n hn) (buildNodeMap_isSome nodes n hn)

/-! ### Exact values on tree-shaped tables (claim C2) -/

/-- Invariant of the traversal relative to a global tree witness `t` and
a set `X` of "open frames" (ids whose recursive call has started but not
returned): every visited id outside `X` carries the exact total of its
(unique) subtree, and that subtree is fully visited. -/
def INVX (sm : JMap ℕ ℚ) (t : NTree) (X : List ℕ) (st : TTState) : Prop :=
  ∀ j ∈ st.visited, j ∉ X →
    ∃ s ∈ t.subL, s.rootId = j ∧ (∀ k ∈ s.tids, k ∈ st.visited) ∧
      jGet st.tmap j = some (pureTotal sm s)

theorem goNode_exact (nm : JMap ℕ V8Node) (sm : JMap ℕ ℚ) (t : NTree)
    (hu : isUnfold nm t = true) (hnd : t.tids.Nodup) :
    ∀ s, s ∈ t.subL → ∀ X st fuel y st',
      (∀ x ∈ X, x ∉ s.tids) →
      INVX sm t X st →
      goNode nm sm fuel s.rootId st = some (y, st') →
      y = pureTotal sm s ∧
      INVX sm t X st' ∧
      (∀ k ∈ st.visited, k ∈ st'.visited) ∧
      (∀ k ∈ s.tids, k ∈ st'.visited) := by
  intro s
  induction s using NTree.strongInd with
  | _ i cs ih =>
    intro hmem X st fuel y st' hX hinv hrun
    have hroot : (NTree.node i cs).rootId = i := rfl
    rw [hroot] at hrun
    have hiX : i ∉ X := fun hx =>
      hX i hx (by rw [tids_node]; exact List.mem_cons_self _ _)
    have hstids : (NTree.node i cs).tids.Nodup := tids_nodup_of_mem_subL hnd hmem
    rw [tids_node] at hstids
    rcases List.nodup_cons.mp hstids with ⟨hifm, _⟩
    cases fuel with
    | zero => simp [goNode] at hrun
    | succ fuel =>
      rw [goNode] at hrun
      by_cases hv : i ∈ st.visited
      · rw [if_pos hv] at hrun
        simp only [Option.some.injEq, Prod.mk.injEq] at hrun
        rcases hrun with ⟨hy, rfl⟩
        obtain ⟨s', hs', hrd, hvis, hmap⟩ := hinv i hv hiX
        have hse : s' = NTree.node i cs :=
          subL_rootId_inj hnd hs' hmem (by rw [hrd]; rfl)
        subst hse
        rw [hmap] at hy
        refine ⟨hy.symm, hinv, fun k hk => hk, fun k hk => hvis k hk⟩
      · rw [if_neg hv] at hrun
        simp only at hrun
        obtain ⟨n, hnmi, hch, hcall⟩ :=
          (isUnfold_node nm i cs).mp (isUnfold_of_mem_subL hu _ hmem)
        rw [hnmi] at hrun
        simp only at hrun
        split at hrun
        next hgc => simp at hrun
        next csum st2 hgc =>
          simp only [Option.some.injEq, Prod.mk.injEq] at hrun
          rcases hrun with ⟨hy, rfl⟩
          rw [hch] at hgc
          -- inner lemma over the children list
          have hX' : ∀ c ∈ cs, ∀ x ∈ i :: X, x ∉ c.tids := by
            intro c hc x hx
            rcases List.mem_cons.mp hx with rfl | hx
            · exact fun hxc => hifm (mem_flatMap_of_mem hc hxc)
            · exact fun hxc =>
                hX x hx (by
                  rw [tids_node]
                  exact List.mem_cons_of_mem _ (mem_flatMap_of_mem hc hxc))
          have hcsub : ∀ c ∈ cs, c ∈ t.subL := fun c hc =>
            childList_mem_subL hmem (by exact hc)
          have hinv1 : INVX sm t (i :: X) ⟨st.tmap, i :: st.visited⟩ := by
            intro j hj hjX
            have hji : ¬ j = i := fun he => hjX (he ▸ List.mem_cons_self i X)
            have hj2 : j ∈ st.visited := by
              rcases List.mem_cons.mp hj with he | hj2
              · exact absurd he hji
              · exact hj2
            obtain ⟨s', hs', hrd, hvis, hmap⟩ :=
              hinv j hj2 fun hx => hjX (List.mem_cons_of_mem i hx)
            exact ⟨s', hs', hrd, fun k hk => List.mem_cons_of_mem i (hvis k hk), hmap⟩
          have hlist : ∀ (l : List NTree), (∀ c ∈ l, c ∈ cs) →
              ∀ st0 fuel0 z st'',
              INVX sm t (i :: X) st0 →
              goChildren nm sm fuel0 (l.map NTree.rootId) st0 = some (z, st'') →
              z = (l.map (pureTotal sm)).sum ∧
              INVX sm t (i :: X) st'' ∧
              (∀ k ∈ st0.visited, k ∈ st''.visited) ∧
              (∀ c ∈ l, ∀ k ∈ c.tids, k ∈ st''.visited) := by
            intro l
            induction l with
            | nil =>
              intro _ st0 fuel0 z st'' hinv0 hrun0
              rw [List.map_nil, goChildren] at hrun0
              simp only [Option.some.injEq, Prod.mk.injEq] at hrun0
              rcases hrun0 with ⟨hz, rfl⟩
              exact ⟨by rw [← hz]; simp, hinv0, fun k hk => hk, by simp⟩
            | cons c l' ihl =>
              intro hl st0 fuel0 z st'' hinv0 hrun0
              rw [List.map_cons, goChildren] at hrun0
              split at hrun0
              next hg1 => simp at hrun0
              next tc st1 hg1 =>
                split at hrun0
                next hg2 => simp at hrun0
                next rest st2' hg2 =>
                  simp only [Option.some.injEq, Prod.mk.injEq] at hrun0
                  rcases hrun0 with ⟨hz, rfl⟩
                  have hcc := hl c (List.mem_cons_self c l')
                  obtain ⟨he1, he2, he3, he4⟩ :=
                    ih c hcc (hcsub c hcc) (i :: X) st0 fuel0 tc st1
                      (fun x hx => hX' c hcc x hx) hinv0 hg1
                  obtain ⟨hf1, hf2, hf3, hf4⟩ :=
                    ihl (fun x hx => hl x (List.mem_cons_of_mem c hx)) st1 fuel0
                      rest st2' he2 hg2
                  refine ⟨?_, hf2, fun k hk => hf3 k (he3 k hk), ?_⟩
                  · rw [List.map_cons, List.sum_cons, ← hz, he1, hf1]
                  · intro c' hc' k hk
                    rcases List.mem_cons.mp hc' with rfl | hc'
                    · exact hf3 k (he4 k hk)
                    · exact hf4 c' hc' k hk
          obtain ⟨hz1, hinv2, hmono2, htids2⟩ :=
            hlist cs (fun c hc => hc) ⟨st.tmap, i :: st.visited⟩ fuel csum st2
              hinv1 hgc
          have hiv1 : i ∈ st2.visited :=
            hmono2 i (List.mem_cons_self i st.visited)
          have hys : y = pureTotal sm (NTree.node i cs) := by
            rw [← hy, hz1, pureTotal_node]
          have htids' : ∀ k ∈ (NTree.node i cs).tids, k ∈ st2.visited := by
            intro k hk
            rw [tids_node] at hk
            rcases List.mem_cons.mp hk with rfl | hk
            · exact hiv1
            · rcases List.mem_flatMap.mp hk with ⟨c, hc, hkc⟩
              exact htids2 c hc k hkc
          refine ⟨hys, ?_, ?_, ?_⟩
          · intro j hj hjX
            by_cases hji : j = i
            · subst hji
              refine ⟨NTree.node j cs, hmem, rfl, htids', ?_⟩
              show jGet (jSet st2.tmap j _) j = _
              rw [jGet_jSet_self, hz1, pureTotal_node]
            · obtain ⟨s', hs', hrd, hvis, hmap⟩ :=
                hinv2 j hj fun hx => by
                  rcases List.mem_cons.mp hx with he | hx2
                  · exact hji he
                  · exact hjX hx2
              refine ⟨s', hs', hrd, hvis, ?_⟩
              show jGet (jSet st2.tmap i _) j = _
              rw [jGet_jSet_ne _ _ _ _ hji]
              exact hmap
          · intro k hk
            exact hmono2 k (List.mem_cons_of_mem i hk)
          · exact htids'

/-- Running `computeTotalTime` on a tree-shaped table establishes the
exactness invariant for all table nodes. -/
theorem computeTotalTimeSt_tree (nodes : List V8Node) (sm : JMap ℕ ℚ)
    (t : NTree) (hu : isUnfold (buildNodeMap nodes) t = true)
    (hnd : t.tids.Nodup)
    (hids : ∀ n ∈ nodes, n.id ∈ t.tids) :
    ∃ st, computeTotalTimeSt nodes (buildNodeMap nodes) sm = some st ∧
      INVX sm t [] st ∧ st.visited.Nodup ∧
      ∀ n ∈ nodes, n.id ∈ st.visited := by
  set nm := buildNodeMap nodes with hnm
  set univA := nodes.map (·.id) ++ nodes.flatMap (·.children) with huA
  have hC : ∀ k n, jGet nm k = some n → ∀ c ∈ n.children, c ∈ univA := by
    intro k n hkn c hc
    rcases buildNodeMap_mem nodes k n hkn with ⟨hmemn, _⟩
    exact List.mem_append_right _ (mem_flatMap_of_mem hmemn hc)
  have hmain : ∀ (l : List V8Node) (st : TTState),
      (∀ x ∈ l, x ∈ nodes) →
      INVX sm t [] st → st.visited.Nodup →
      ∃ st',
        l.foldlM
          (fun st node => (goNode nm sm (ttFuel nodes) node.id st).map (·.2))
          st = some st' ∧
        INVX sm t [] st' ∧ st'.visited.Nodup ∧
        (∀ k ∈ st.visited, k ∈ st'.visited) ∧
        (∀ x ∈ l, x.id ∈ st'.visited) := by
    intro l
    induction l with
    | nil =>
      intro st _ h1 h2
      exact ⟨st, rfl, h1, h2, fun k hk => hk, by simp⟩
    | cons x xs ihl =>
      intro st hl h1 h2
      have hxn := hl x (List.mem_cons_self x xs)
      have hxid : x.id ∈ univA :=
        List.mem_append_left _ (List.mem_map_of_mem _ hxn)
      have hcnt : unvisitedCount univA st < ttFuel nodes := by
        have hle : unvisitedCount univA st ≤ univA.length :=
          List.length_filter_le _ _
        have : ttFuel nodes = univA.length + 1 := rfl
        omega
      have hsome := ((goNode_fuel nm sm univA hC (ttFuel nodes)).1) x.id st hxid hcnt
      cases hg : goNode nm sm (ttFuel nodes) x.id st with
      | none => rw [hg] at hsome; simp at hsome
      | some pr =>
        obtain ⟨y, st1⟩ := pr
        obtain ⟨s, hs, hsr⟩ := exists_subtree_of_mem_tids (hids x hxn)
        rw [← hsr] at hg
        obtain ⟨_, hi1, hi2, hi3⟩ :=
          goNode_exact nm sm t hu hnd s hs [] st (ttFuel nodes) y st1
            (by simp) h1 hg
        have hnd1 : st1.visited.Nodup := by
          rw [hsr] at hg
          exact (((goNode_props nm sm (ttFuel nodes)).1 x.id st y st1 hg).2.2.2.1) h2
        obtain ⟨st', hfold, hq1, hq2, hq3, hq4⟩ :=
          ihl st1 (fun z hz => hl z (List.mem_cons_of_mem x hz)) hi1 hnd1
        refine ⟨st', ?_, hq1, hq2, fun k hk => hq3 k (hi2 k hk), ?_⟩
        · rw [List.foldlM_cons]
          rw [hsr] at hg
          rw [hg]
          simpa using hfold
        · intro z hz
          rcases List.mem_cons.mp hz with rfl | hz
          · have hmemv : z.id ∈ st1.visited := by
              rw [← hsr]
              exact hi3 s.rootId (rootId_mem_tids s)
            exact hq3 _ hmemv
          · exact hq4 z hz
  obtain ⟨st', hfold, h1, h2, _, h4⟩ :=
    hmain nodes ⟨[], []⟩ (fun x hx => hx) (fun j hj => by simp at hj)
      List.nodup_nil
  exact ⟨st', hfold, h1, h2, h4⟩

/-! ### Self-time attribution sums (claim C1) -/

/-- The self-time fold of `buildSelfHit`, first component only. -/
theorem buildSelfHit_fst (samples : List ℕ) (timeDeltas : List ℚ) :
    (buildSelfHit samples timeDeltas).1 =
      (samples.zip timeDeltas).foldl
        (fun m sd => jSet m sd.1 ((jGet m sd.1).getD 0 + sd.2)) [] := by
  suffices haux : ∀ (pairs : List (ℕ × ℚ)) (m1 : JMap ℕ ℚ) (m2 : JMap ℕ ℕ),
      (pairs.foldl
        (fun maps sd =>
          (jSet maps.1 sd.1 ((jGet maps.1 sd.1).getD 0 + sd.2),
           jSet maps.2 sd.1 ((jGet maps.2 sd.1).getD 0 + 1)))
        (m1, m2)).1 =
      pairs.foldl (fun m sd => jSet m sd.1 ((jGet m sd.1).getD 0 + sd.2)) m1 from
    haux (samples.zip timeDeltas) [] []
  intro pairs
  induction pairs with
  | nil => intro m1 m2; rfl
  | cons sd rest ih => intro m1 m2; exact ih _ _

/-- Updating one key adds its delta to the sum over any duplicate-free
key list containing it. -/
theorem sum_jSet_step (m : JMap ℕ ℚ) (ids : List ℕ) (s : ℕ) (d : ℚ)
    (hnd : ids.Nodup) (hs : s ∈ ids) :
    (ids.map fun j => (jGet (jSet m s ((jGet m s).getD 0 + d)) j).getD 0).sum =
      (ids.map fun j => (jGet m j).getD 0).sum + d := by
  induction ids with
  | nil => simp at hs
  | cons y ys ih =>
    rw [List.map_cons, List.map_cons, List.sum_cons, List.sum_cons]
    rcases List.nodup_cons.mp hnd with ⟨hy, hys⟩
    rcases List.mem_cons.mp hs with heq | hs'
    · subst heq
      rw [jGet_jSet_self]
      have htail : (ys.map fun j =>
          (jGet (jSet m s ((jGet m s).getD 0 + d)) j).getD 0) =
          ys.map fun j => (jGet m j).getD 0 := by
        apply List.map_congr_left
        intro j hj
        rw [jGet_jSet_ne _ _ _ _ fun he => hy (by rw [← he]; exact hj)]
      rw [htail]
      simp only [Option.getD_some]
      ring
    · have hyne : ¬ y = s := fun he => hy (he ▸ hs')
      rw [jGet_jSet_ne _ _ _ _ hyne, ih hys hs']
      ring

/-- The self-time fold distributes total delta mass over any
duplicate-free key list covering all samples. -/
theorem selfTime_fold_sum (pairs : List (ℕ × ℚ)) (m : JMap ℕ ℚ)
    (ids : List ℕ) (hnd : ids.Nodup) (hsub : ∀ sd ∈ pairs, sd.1 ∈ ids) :
    (ids.map fun j =>
        (jGet (pairs.foldl
          (fun m sd => jSet m sd.1 ((jGet m sd.1).getD 0 + sd.2)) m) j).getD 0).sum =
      (ids.map fun j => (jGet m j).getD 0).sum + (pairs.map (·.2)).sum := by
  induction pairs generalizing m with
  | nil => simp
  | cons sd rest ih =>
    rw [List.foldl_cons, List.map_cons, List.sum_cons,
      ih _ fun x hx => hsub x (List.mem_cons_of_mem sd hx),
      sum_jSet_step m ids sd.1 sd.2 hnd (hsub sd (List.mem_cons_self sd rest))]
    ring

/-- Every self-time value is nonnegative when all deltas are. -/
theorem selfTime_fold_nonneg (pairs : List (ℕ × ℚ)) (m : JMap ℕ ℚ)
    (hm : ∀ j, 0 ≤ (jGet m j).getD 0) (hd : ∀ sd ∈ pairs, 0 ≤ sd.2) :
    ∀ j, 0 ≤ (jGet (pairs.foldl
      (fun m sd => jSet m sd.1 ((jGet m sd.1).getD 0 + sd.2)) m) j).getD 0 := by
  induction pairs generalizing m with
  | nil => exact hm
  | cons sd rest ih =>
    rw [List.foldl_cons]
    apply ih
    · intro j
      by_cases hj : j = sd.1
      · rw [hj, jGet_jSet_self]
        have h1 := hm sd.1
        have h2 := hd sd (List.mem_cons_self sd rest)
        simp only [Option.getD_some]
        linarith
      · rw [jGet_jSet_ne _ _ _ _ hj]
        exact hm j
    · exact fun x hx => hd x (List.mem_cons_of_mem sd hx)

/-- `pureTotal` dominates the root's self time when self times are
nonnegative. -/
theorem pureTotal_nonneg (sm : JMap ℕ ℚ) (hsm : ∀ j, 0 ≤ (jGet sm j).getD 0) :
    ∀ t : NTree, 0 ≤ pureTotal sm t := by
  intro t
  induction t using NTree.strongInd with
  | _ i cs ih =>
    rw [pureTotal_node]
    have hsum : 0 ≤ (cs.map (pureTotal sm)).sum := by
      apply List.sum_nonneg
      intro x hx
      rcases List.mem_map.mp hx with ⟨c, hc, rfl⟩
      exact ih c hc
    have := hsm i
    linarith

theorem pureTotal_ge_self (sm : JMap ℕ ℚ) (hsm : ∀ j, 0 ≤ (jGet sm j).getD 0)
    (i : ℕ) (cs : List NTree) :
    (jGet sm i).getD 0 ≤ pureTotal sm (NTree.node i cs) := by
  rw [pureTotal_node]
  have hsum : 0 ≤ (cs.map (pureTotal sm)).sum := by
    apply List.sum_nonneg
    intro x hx
    rcases List.mem_map.mp hx with ⟨c, hc, rfl⟩
    exact pureTotal_nonneg sm hsm c
  linarith

/-! ### Shape of a successful analyzeProfile run -/

theorem analyzeProfile_some (profile : V8Profile) (options : AnalyzeOptions)
    (r : AnalysisResult) (h : analyzeProfile profile options = some r) :
    r.totalTime = profile.timeDeltas.foldl (· + ·) 0 ∧
    r.totalSamples = profile.samples.length ∧
    r.sampleInterval = (if profile.samples.length = 0 then none
      else some ((profile.timeDeltas.foldl (· + ·) 0) / (profile.samples.length : ℚ))) ∧
    r.functionStats = aggregateFunctionStats profile.nodes
      (buildSelfHit profile.samples profile.timeDeltas).1
      (computeTotalTime profile.nodes (buildNodeMap profile.nodes)
        (buildSelfHit profile.samples profile.timeDeltas).1)
      (buildSelfHit profile.samples profile.timeDeltas).2
      (profile.timeDeltas.foldl (· + ·) 0) (buildNodeMap profile.nodes) ∧
    r.hotspots =
      extractHotspots r.functionStats options.hotspotThreshold options.maxHotspots ∧
    (∃ rootNode, profile.nodes.head? = some rootNode ∧
      buildCallTree rootNode (buildNodeMap profile.nodes)
        (buildSelfHit profile.samples profile.timeDeltas).1
        (computeTotalTime profile.nodes (buildNodeMap profile.nodes)
          (buildSelfHit profile.samples profile.timeDeltas).1)
        (profile.timeDeltas.foldl (· + ·) 0)
        (profile.nodes.length + 1) = some r.callTree) ∧
    r.criticalPaths = findCriticalPaths r.callTree options.maxPaths ∧
    r.startTime = profile.startTime ∧ r.endTime = profile.endTime := by
  unfold analyzeProfile at h
  simp only at h
  split at h
  next => simp at h
  next rootNode hroot =>
    split at h
    next => simp at h
    next callTree hct =>
      simp only [Option.some.injEq] at h
      subst h
      exact ⟨rfl, rfl, rfl, rfl, rfl, ⟨rootNode, hroot, hct⟩, rfl, rfl, rfl⟩

/-! ### Percentages in the aggregated statistics -/

theorem aggregateFunctionStats_percent (nodes : List V8Node) (sm tm : JMap ℕ ℚ)
    (hm : JMap ℕ ℕ) (totalTime : ℚ) (nm : JMap ℕ V8Node) :
    ∀ s ∈ jValues (aggregateFunctionStats nodes sm tm hm totalTime nm),
      s.selfPercent = (if 0 < totalTime then s.selfTime / totalTime * 100 else 0) ∧
      s.totalPercent = (if 0 < totalTime then s.totalTime / totalTime * 100 else 0) := by
  intro s hs
  unfold aggregateFunctionStats at hs
  simp only [jValues, List.map_map, List.mem_map] at hs
  rcases hs with ⟨p, _, rfl⟩
  constructor <;> rfl

/-! ### Hotspot list structure (claims C4 and C5) -/

theorem toHotspot_selfTime (s : FunctionStats) : (toHotspot s).selfTime = s.selfTime := rfl

theorem toHotspot_selfPercent (s : FunctionStats) :
    (toHotspot s).selfPercent = s.selfPercent := rfl

theorem extractHotspots_threshold (fs : JMap String FunctionStats)
    (threshold : ℚ) (maxCount : ℕ) :
    ∀ h ∈ extractHotspots fs threshold maxCount, threshold ≤ h.selfPercent := by
  intro h hh
  unfold extractHotspots at hh
  rcases List.mem_map.mp hh with ⟨s, hs, rfl⟩
  have hs2 : s ∈ sortByKeyDesc FunctionStats.selfTime
      ((jValues fs).filter fun s => decide (threshold ≤ s.selfPercent)) :=
    List.mem_of_mem_take hs
  have hs3 := (mem_sortByKeyDesc _ _ _).mp hs2
  rcases List.mem_filter.mp hs3 with ⟨_, hdec⟩
  rw [toHotspot_selfPercent]
  exact of_decide_eq_true hdec

theorem extractHotspots_sorted (fs : JMap String FunctionStats)
    (threshold : ℚ) (maxCount : ℕ) :
    (extractHotspots fs threshold maxCount).Pairwise
      fun a b => b.selfTime ≤ a.selfTime := by
  unfold extractHotspots
  rw [List.pairwise_map]
  exact List.Pairwise.sublist (List.take_sublist _ _)
    (pairwise_sortByKeyDesc FunctionStats.selfTime _)

theorem extractHotspots_length (fs : JMap String FunctionStats)
    (threshold : ℚ) (maxCount : ℕ) :
    (extractHotspots fs threshold maxCount).length ≤ maxCount := by
  unfold extractHotspots
  rw [List.length_map]
  exact List.length_take_le _ _

theorem extractHotspots_stable (fs : JMap String FunctionStats)
    (threshold : ℚ) (maxCount : ℕ) (c : ℚ) :
    ∃ u, (extractHotspots fs threshold maxCount).filter
        (fun h => decide (h.selfTime = c)) ++ u =
      (((jValues fs).filter fun s => decide (threshold ≤ s.selfPercent)).filter
        (fun s => decide (s.selfTime = c))).map toHotspot := by
  unfold extractHotspots
  rw [List.filter_map]
  have hcomp : ((fun h : Hotspot => decide (h.selfTime = c)) ∘ toHotspot) =
      fun s : FunctionStats => decide (s.selfTime = c) := rfl
  rw [hcomp]
  obtain ⟨u, hu⟩ := filter_take_append (fun s : FunctionStats => decide (s.selfTime = c))
    maxCount (sortByKeyDesc FunctionStats.selfTime
      ((jValues fs).filter fun s => decide (threshold ≤ s.selfPercent)))
  refine ⟨u.map toHotspot, ?_⟩
  rw [← List.map_append, hu, filter_sortByKeyDesc]

/-! ### Call-tree structure lemmas -/

theorem CallTreeNode.strongIndOn (P : CallTreeNode → Prop)
    (h : ∀ name url line st tt sp tp cs, (∀ c ∈ cs, P c) →
      P (.mk name url line st tt sp tp cs)) : ∀ t, P t := fun t =>
  match t with
  | .mk name url line st tt sp tp cs =>
    h name url line st tt sp tp cs fun c hc => CallTreeNode.strongIndOn P h c
termination_by t => sizeOf t
decreasing_by
  have := List.sizeOf_lt_of_mem hc
  simp only [CallTreeNode.mk.sizeOf_spec]
  omega

/-- Number of leaves of a call tree. -/
def leafCount : CallTreeNode → ℕ
  | .mk _ _ _ _ _ _ _ cs =>
    if cs.isEmpty then 1 else (cs.attach.map fun c => leafCount c.1).sum
termination_by t => sizeOf t
decreasing_by
  have := List.sizeOf_lt_of_mem c.2
  simp only [CallTreeNode.mk.sizeOf_spec]
  omega

theorem leafCount_node (name url : String) (line : Int)
    (st tt sp tp : ℚ) (cs : List CallTreeNode) :
    leafCount (.mk name url line st tt sp tp cs) =
      if cs.isEmpty then 1 else (cs.map leafCount).sum := by
  rw [leafCount, attach_map_eq]

/-- The path record a call-tree node contributes to a critical path. -/
def pnOf (name : String) (sp tp : ℚ) : PathNode :=
  { name := name, selfPercent := sp, totalPercent := tp }

theorem pathsOf_node (name url : String) (line : Int)
    (st tt sp tp : ℚ) (cs : List CallTreeNode) (path : List PathNode) :
    pathsOf (.mk name url line st tt sp tp cs) path =
      if cs.isEmpty then
        [{ path := path ++ [pnOf name sp tp]
           cumulativePercent :=
             (path ++ [pnOf name sp tp]).foldl (fun s p => s + p.selfPercent) 0 }]
      else
        cs.flatMap fun c => pathsOf c (path ++ [pnOf name sp tp]) := by
  rw [pathsOf]
  by_cases hc : cs.isEmpty
  · rw [if_pos hc, if_pos hc]
    rfl
  · rw [if_neg hc, if_neg hc]
    exact attach_flatMap_eq cs fun c => pathsOf c (path ++ [pnOf name sp tp])

/-- A root-to-leaf sequence of path records in a call tree. -/
inductive RootToLeaf : CallTreeNode → List PathNode → Prop where
  | leaf (t : CallTreeNode) : t.children = [] →
      RootToLeaf t [⟨t.name, t.selfPercent, t.totalPercent⟩]
  | cons (t : CallTreeNode) (c : CallTreeNode) (p : List PathNode) :
      c ∈ t.children → RootToLeaf c p →
      RootToLeaf t (⟨t.name, t.selfPercent, t.totalPercent⟩ :: p)

theorem foldl_selfPercent_sum (l : List PathNode) (a : ℚ) :
    l.foldl (fun s p => s + p.selfPercent) a =
      a + (l.map PathNode.selfPercent).sum := by
  induction l generalizing a with
  | nil => simp
  | cons p ps ih =>
    rw [List.foldl_cons, ih, List.map_cons, List.sum_cons]
    ring

theorem pathsOf_spec (t : CallTreeNode) : ∀ acc : List PathNode,
    (pathsOf t acc).length = leafCount t ∧
    ∀ pr ∈ pathsOf t acc, ∃ p, RootToLeaf t p ∧ pr.path = acc ++ p ∧
      pr.cumulativePercent = ((acc ++ p).map PathNode.selfPercent).sum := by
  induction t using CallTreeNode.strongIndOn with
  | _ name url line st tt sp tp cs ih =>
    intro acc
    rw [pathsOf_node, leafCount_node]
    by_cases hc : cs.isEmpty
    · rw [if_pos hc, if_pos hc]
      refine ⟨rfl, ?_⟩
      intro pr hpr
      rcases List.mem_singleton.mp hpr with rfl
      refine ⟨[pnOf name sp tp], ?_, rfl, ?_⟩
      · exact RootToLeaf.leaf _ (List.isEmpty_iff.mp hc)
      · show (acc ++ [pnOf name sp tp]).foldl (fun s p => s + p.selfPercent) 0 = _
        rw [foldl_selfPercent_sum]
        ring
    · rw [if_neg hc, if_neg hc]
      constructor
      · rw [List.length_flatMap]
        congr 1
        apply List.map_congr_left
        intro c hcc
        exact ((ih c hcc) (acc ++ [pnOf name sp tp])).1
      · intro pr hpr
        rcases List.mem_flatMap.mp hpr with ⟨c, hcc, hprc⟩
        obtain ⟨p, hp1, hp2, hp3⟩ := ((ih c hcc) (acc ++ [pnOf name sp tp])).2 pr hprc
        refine ⟨pnOf name sp tp :: p, RootToLeaf.cons _ c p hcc hp1, ?_, ?_⟩
        · rw [hp2, List.append_assoc]
          rfl
        · rw [hp3, List.append_assoc]
          rfl

theorem attach_forall (l : List α) (P : α → Prop) :
    (∀ c ∈ l.attach, P c.1) ↔ ∀ c ∈ l, P c := by
  constructor
  · intro h c hc
    exact h ⟨c, hc⟩ (List.mem_attach l _)
  · intro h c _
    exact h c.1 c.2

theorem mem_le_foldr_max (l : List ℕ) (x : ℕ) (hx : x ∈ l) :
    x ≤ l.foldr max 0 := by
  induction l with
  | nil => simp at hx
  | cons y ys ih =>
    rw [List.foldr_cons]
    rcases List.mem_cons.mp hx with rfl | hx
    · exact le_max_left _ _
    · exact le_trans (ih hx) (le_max_right _ _)

/-- On a tree-shaped table, `buildCallTree` succeeds whenever the fuel is
at least the tree depth (the JS recursion terminates). -/
theorem buildCTNode_some (nm : JMap ℕ V8Node) (sm tm : JMap ℕ ℚ) (T : ℚ) :
    ∀ s : NTree, isUnfold nm s = true → ∀ fuel, s.depth ≤ fuel →
      (buildCTNode nm sm tm T fuel s.rootId).isSome := by
  intro s
  induction s using NTree.strongInd with
  | _ i cs ih =>
    intro hu fuel hfuel
    rw [depth_node] at hfuel
    cases fuel with
    | zero => omega
    | succ fuel =>
      obtain ⟨n, hnmi, hch, hcall⟩ := (isUnfold_node nm i cs).mp hu
      have hroot : (NTree.node i cs).rootId = i := rfl
      rw [hroot, buildCTNode, hnmi]
      have hmax : (cs.map NTree.depth).foldr max 0 ≤ fuel := by omega
      have hlist : ∀ l : List NTree, (∀ c ∈ l, c ∈ cs) →
          (buildCTList nm sm tm T fuel (l.map NTree.rootId)).isSome := by
        intro l
        induction l with
        | nil => intro _; rw [List.map_nil, buildCTList]; rfl
        | cons c l' ihl =>
          intro hl
          have hcc := hl c (List.mem_cons_self c l')
          have hd : c.depth ≤ fuel :=
            le_trans (mem_le_foldr_max _ _ (List.mem_map_of_mem NTree.depth hcc)) hmax
          have h1 := ih c hcc (hcall c hcc) fuel hd
          rw [List.map_cons, buildCTList]
          cases hg1 : buildCTNode nm sm tm T fuel c.rootId with
          | none => rw [hg1] at h1; simp at h1
          | some ct =>
            simp only
            have h2 := ihl fun x hx => hl x (List.mem_cons_of_mem c hx)
            cases hg2 : buildCTList nm sm tm T fuel (l'.map NTree.rootId) with
            | none => rw [hg2] at h2; simp at h2
            | some cts => rfl
      have hl := hlist cs (fun c hc => hc)
      rw [← hch] at hl
      simp only
      cases hg : buildCTList nm sm tm T fuel n.children with
      | none => rw [hg] at hl; simp at hl
      | some cts => rfl

/-- All percentage annotations in a call tree are zero. -/
def ctAllZero : CallTreeNode → Prop
  | .mk _ _ _ _ _ sp tp cs => sp = 0 ∧ tp = 0 ∧ ∀ c ∈ cs.attach, ctAllZero c.1
termination_by t => sizeOf t
decreasing_by
  have := List.sizeOf_lt_of_mem c.2
  simp only [CallTreeNode.mk.sizeOf_spec]
  omega

theorem ctAllZero_node (name url : String) (line : Int)
    (st tt sp tp : ℚ) (cs : List CallTreeNode) :
    ctAllZero (.mk name url line st tt sp tp cs) ↔
      sp = 0 ∧ tp = 0 ∧ ∀ c ∈ cs, ctAllZero c := by
  rw [ctAllZero]
  constructor
  · rintro ⟨h1, h2, h3⟩
    exact ⟨h1, h2, (attach_forall cs ctAllZero).mp h3⟩
  · rintro ⟨h1, h2, h3⟩
    exact ⟨h1, h2, (attach_forall cs ctAllZero).mpr h3⟩

/-- With non-positive total time the builder's two guards both produce
zero percentages everywhere. -/
theorem buildCT_allZero (nm : JMap ℕ V8Node) (sm tm : JMap ℕ ℚ) (T : ℚ)
    (hT : ¬ 0 < T) : ∀ fuel : ℕ,
    (∀ id ct, buildCTNode nm sm tm T fuel id = some ct → ctAllZero ct) ∧
    (∀ ids cts, buildCTList nm sm tm T fuel ids = some cts →
      ∀ c ∈ cts, ctAllZero c) := by
  intro fuel
  induction fuel with
  | zero =>
    constructor
    · intro id ct h; simp [buildCTNode] at h
    · intro ids cts h c hc
      cases ids with
      | nil =>
        rw [buildCTList] at h
        simp only [Option.some.injEq] at h
        subst h
        simp at hc
      | cons x xs => simp [buildCTList, buildCTNode] at h
  | succ fuel ih =>
    obtain ⟨ihN, ihC⟩ := ih
    have hN : ∀ id ct, buildCTNode nm sm tm T (fuel + 1) id = some ct →
        ctAllZero ct := by
      intro id ct h
      rw [buildCTNode] at h
      split at h
      next => simp at h
      next n hnm =>
        split at h
        next => simp at h
        next cts hcts =>
          simp only [Option.some.injEq] at h
          subst h
          rw [ctAllZero_node]
          refine ⟨by rw [if_neg hT], by rw [if_neg hT], ?_⟩
          intro c hc
          exact ihC n.children cts hcts c ((mem_sortByKeyDesc _ _ _).mp hc)
    refine ⟨hN, ?_⟩
    intro ids
    induction ids with
    | nil =>
      intro cts h c hc
      rw [buildCTList] at h
      simp only [Option.some.injEq] at h
      subst h
      simp at hc
    | cons x xs ihl =>
      intro cts h c hc
      rw [buildCTList] at h
      split at h
      next => simp at h
      next ct hct =>
        split at h
        next => simp at h
        next cts' hcts' =>
          simp only [Option.some.injEq] at h
          subst h
          rcases List.mem_cons.mp hc with rfl | hc
          · exact hN x c hct
          · exact ihl cts' hcts' c hc

/-- All path records along root-to-leaf paths of an all-zero tree carry
zero percentages. -/
theorem rootToLeaf_allZero (t : CallTreeNode) (p : List PathNode)
    (hp : RootToLeaf t p) (hz : ctAllZero t) :
    ∀ pn ∈ p, pn.selfPercent = 0 ∧ pn.totalPercent = 0 := by
  induction hp with
  | leaf t ht =>
    intro pn hpn
    rcases List.mem_singleton.mp hpn with rfl
    cases t with
    | mk name url line st tt sp tp cs =>
      rcases (ctAllZero_node _ _ _ _ _ _ _ _).mp hz with ⟨h1, h2, _⟩
      exact ⟨h1, h2⟩
  | cons t c p hc hrec ih =>
    intro pn hpn
    cases t with
    | mk name url line st tt sp tp cs =>
      rcases (ctAllZero_node _ _ _ _ _ _ _ _).mp hz with ⟨h1, h2, h3⟩
      rcases List.mem_cons.mp hpn with rfl | hpn
      · exact ⟨h1, h2⟩
      · exact ih (h3 c hc) pn hpn

/-! ### Error taxonomy of the JSON parse phase (claim C8) -/

theorem ebind_ok {α β : Type} {x : Except ParseError α}
    {f : α → Except ParseError β} {b : β} (h : (x >>= f) = .ok b) :
    ∃ a, x = .ok a ∧ f a = .ok b := by
  cases x with
  | error e => simp [Bind.bind, Except.bind] at h
  | ok a => exact ⟨a, rfl, by simpa [Bind.bind, Except.bind] using h⟩

theorem ebind_error {α β : Type} {x : Except ParseError α}
    {f : α → Except ParseError β} {e : ParseError} (h : (x >>= f) = .error e) :
    x = .error e ∨ ∃ a, x = .ok a ∧ f a = .error e := by
  cases x with
  | error e' =>
    left
    simp only [Bind.bind, Except.bind, Except.error.injEq] at h
    rw [h]
  | ok a =>
    right
    exact ⟨a, rfl, by simpa [Bind.bind, Except.bind] using h⟩

theorem ebind_ok_intro {α β : Type} {x : Except ParseError α}
    {f : α → Except ParseError β} {a : α} (hx : x = .ok a) :
    (x >>= f) = f a := by
  rw [hx]
  rfl

theorem jprop_error (v : JVal) (k : String) (e : ParseError)
    (h : jprop v k = .error e) : e = .typeError := by
  cases v with
  | none => cases h; rfl
  | some j => cases j <;> first | (cases h; rfl) | (simp [jprop] at h)

theorem pure_ne_error {α : Type} (a : α) (e : ParseError) :
    (pure a : Except ParseError α) ≠ .error e := by
  simp [pure, Except.pure]

theorem evtMatches_error (evt : Json) (e : ParseError)
    (h : evtMatches evt = .error e) : e = .typeError := by
  unfold evtMatches at h
  rcases ebind_error h with h1 | ⟨nameVal, _, h2⟩
  · exact jprop_error _ _ _ h1
  · split at h2
    · exact absurd h2 (pure_ne_error _ _)
    · rcases ebind_error h2 with h3 | ⟨args, _, h4⟩
      · exact jprop_error _ _ _ h3
      · exact absurd h4 (pure_ne_error _ _)

theorem findCpuProfileEvent_error (events : List Json) (e : ParseError)
    (h : findCpuProfileEvent events = .error e) : e = .typeError := by
  induction events with
  | nil => simp [findCpuProfileEvent] at h
  | cons evt rest ih =>
    unfold findCpuProfileEvent at h
    rcases ebind_error h with h1 | ⟨b, _, h2⟩
    · exact evtMatches_error _ _ h1
    · split at h2
      · exact absurd h2 (pure_ne_error _ _)
      · exact ih h2

theorem substituteEvent_error (evt : Json) (e : ParseError)
    (h : substituteEvent evt = .error e) : e = .typeError := by
  unfold substituteEvent at h
  rcases ebind_error h with h1 | ⟨args, _, h2⟩
  · exact jprop_error _ _ _ h1
  · split at h2 <;> exact absurd h2 (pure_ne_error _ _)

theorem unwrapTrace_error (parsed : Json) (e : ParseError)
    (h : unwrapTrace parsed = .error e) : e = .typeError := by
  unfold unwrapTrace at h
  split at h
  · rcases ebind_error h with h1 | ⟨evt, _, h2⟩
    · exact findCpuProfileEvent_error _ _ h1
    · split at h2
      · exact substituteEvent_error _ _ h2
      · exact absurd h2 (pure_ne_error _ _)
  · rcases ebind_error h with h1 | ⟨te, _, h2⟩
    · exact jprop_error _ _ _ h1
    · split at h2
      · split at h2
        · rcases ebind_error h2 with h3 | ⟨evt, _, h4⟩
          · exact findCpuProfileEvent_error _ _ h3
          · split at h4
            · exact substituteEvent_error _ _ h4
            · exact absurd h4 (pure_ne_error _ _)
        · cases h2; rfl
      · exact absurd h2 (pure_ne_error _ _)

theorem linJson_error : ∀ N : ℕ,
    (∀ (node : Json) parentId nextId e, sizeOf node ≤ N →
      linJsonNode node parentId nextId = .error e → e = .typeError) ∧
    (∀ (node : Json) (l : List {c : Json // c ∈ jChildArr node})
        parentId nextId e, sizeOf node ≤ N + 1 →
      linJsonKids node l parentId nextId = .error e → e = .typeError) := by
  intro N
  induction N with
  | zero =>
    constructor
    · intro node _ _ _ hsz _
      have : 0 < sizeOf node := by cases node <;> simp <;> omega
      omega
    · intro node l _ _ _ hsz h
      cases l with
      | nil => simp [linJsonKids] at h
      | cons c cs =>
        have h1 := sizeOf_mem_jChildArr node c.1 c.2
        have h2 : 0 < sizeOf c.1 := by cases hc : c.1 <;> simp <;> omega
        omega
  | succ N ih =>
    obtain ⟨ihN, ihK⟩ := ih
    have nodePart : ∀ (node : Json) parentId nextId e, sizeOf node ≤ N + 1 →
        linJsonNode node parentId nextId = .error e → e = .typeError := by
      intro node parentId nextId e hsz h
      rw [linJsonNode] at h
      split at h
      next cfVal fn url ln col hc =>
        split at h
        next e' hlin =>
          cases h
          exact ihK node _ nextId (nextId + 1) _ hsz hlin
        next r hlin => simp at h
      next => cases h; rfl
    refine ⟨nodePart, ?_⟩
    intro node l parentId nextId e hsz h
    induction l generalizing nextId e with
    | nil => simp [linJsonKids] at h
    | cons c cs ihl =>
      rw [linJsonKids] at h
      split at h
      next e' hg1 =>
        cases h
        have hszc : sizeOf c.1 ≤ N + 1 := by
          have := sizeOf_mem_jChildArr node c.1 c.2
          omega
        exact nodePart c.1 (some parentId) nextId _ hszc hg1
      next r1 hg1 =>
        split at h
        next e' hg2 =>
          cases h
          exact ihl r1.2.2 _ hg2
        next r2 hg2 => simp at h

theorem linearizeHeadJson_error (head : Json) (e : ParseError)
    (h : linearizeHeadJson head = .error e) : e = .typeError := by
  unfold linearizeHeadJson at h
  rcases ebind_error h with h1 | ⟨r, _, h2⟩
  · exact (linJson_error (sizeOf head)).1 head none 1 e le_rfl h1
  · exact absurd h2 (pure_ne_error _ _)

/-- A JS value on which plain property access does not throw. -/
def accessible (v : JVal) : Prop := v ≠ none ∧ v ≠ some Json.null

theorem jprop_ok_of_accessible (v : JVal) (k : String) (h : accessible v) :
    jprop v k = .ok (jpropOpt v k) := by
  rcases h with ⟨h1, h2⟩
  cases v with
  | none => exact absurd rfl h1
  | some j =>
    cases j with
    | null => exact absurd rfl h2
    | bool b => rfl
    | num q => rfl
    | str s => rfl
    | arr elems => rfl
    | obj fields => rfl

theorem unwrapJson_error (parsed : Json) (e : ParseError)
    (h : unwrapJson parsed = .error e) : e = .typeError := by
  unfold unwrapJson at h
  rcases ebind_error h with h1 | ⟨pv, _, h2⟩
  · exact unwrapTrace_error _ _ h1
  · rcases ebind_error h2 with h3 | ⟨headVal, _, h4⟩
    · exact jprop_error _ _ _ h3
    · rcases ebind_error h4 with h5 | ⟨nodesVal0, _, h6⟩
      · exact jprop_error _ _ _ h5
      · split at h6
        · rcases ebind_error h6 with h7 | ⟨lin, _, h8⟩
          · exact linearizeHeadJson_error _ _ h7
          · exact absurd h8 (pure_ne_error _ _)
        · exact absurd h6 (pure_ne_error _ _)

theorem unwrapJson_ok_accessible (parsed : Json) (pv nv : JVal)
    (h : unwrapJson parsed = .ok (pv, nv)) : accessible pv := by
  unfold unwrapJson at h
  rcases ebind_ok h with ⟨pv0, hpv0, h2⟩
  rcases ebind_ok h2 with ⟨headVal, hhead, h3⟩
  have hacc : accessible pv0 := by
    constructor
    · intro he
      rw [he] at hhead
      simp [jprop] at hhead
    · intro he
      rw [he] at hhead
      simp [jprop] at hhead
  rcases ebind_ok h3 with ⟨nodesVal0, _, h4⟩
  split at h4
  · rcases ebind_ok h4 with ⟨lin, _, h5⟩
    simp only [pure, Except.pure, Except.ok.injEq, Prod.mk.injEq] at h5
    rw [← h5.1]
    exact hacc
  · simp only [pure, Except.pure, Except.ok.injEq, Prod.mk.injEq] at h4
    rw [← h4.1]
    exact hacc

/-- The validation phase realizes exactly the `firstMissing` analysis on
accessible working values. -/
theorem validateJson_eq (pv nv : JVal) (hacc : accessible pv) :
    validateJson pv nv =
      match firstMissing pv nv with
      | some f => .error (.malformedProfile f)
      | none =>
        .ok
          { startTime := jOr (jpropOpt pv "startTime") (.num 0)
            endTime := jOr (jpropOpt pv "endTime") (.num 0)
            nodes := nv
            samples := jpropOpt pv "samples"
            timeDeltas := jpropOpt pv "timeDeltas" } := by
  unfold validateJson firstMissing
  by_cases h1 : (!truthy nv || !isArray nv) = true
  · rw [if_pos h1, if_pos h1]
  · rw [if_neg h1, if_neg h1]
    rw [ebind_ok_intro (jprop_ok_of_accessible pv "samples" hacc)]
    by_cases h2 : (!truthy (jpropOpt pv "samples") ||
        !isArray (jpropOpt pv "samples")) = true
    · rw [if_pos h2, if_pos h2]
    · rw [if_neg h2, if_neg h2]
      rw [ebind_ok_intro (jprop_ok_of_accessible pv "timeDeltas" hacc)]
      by_cases h3 : (!truthy (jpropOpt pv "timeDeltas") ||
          !isArray (jpropOpt pv "timeDeltas")) = true
      · rw [if_pos h3, if_pos h3]
      · rw [if_neg h3, if_neg h3]
        rw [ebind_ok_intro (jprop_ok_of_accessible pv "startTime" hacc),
          ebind_ok_intro (jprop_ok_of_accessible pv "endTime" hacc)]
        rfl

theorem parseProfileJson_invalidEncoding_iff (input : Option Json) :
    parseProfileJson input = .error .invalidEncoding ↔ input = none := by
  constructor
  · intro h
    cases input with
    | none => rfl
    | some parsed =>
      unfold parseProfileJson at h
      rcases ebind_error h with h1 | ⟨pr, hpr, h2⟩
      · cases unwrapJson_error _ _ h1
      · have hacc := unwrapJson_ok_accessible parsed pr.1 pr.2 (by rw [hpr])
        rw [validateJson_eq pr.1 pr.2 hacc] at h2
        split at h2
        · cases h2
        · cases h2
  · intro h
    subst h
    rfl

theorem parseProfileJson_malformed_iff (j : Json) (f : String) :
    parseProfileJson (some j) = .error (.malformedProfile f) ↔
      ∃ pv nv, unwrapJson j = .ok (pv, nv) ∧ firstMissing pv nv = some f := by
  constructor
  · intro h
    unfold parseProfileJson at h
    rcases ebind_error h with h1 | ⟨pr, hpr, h2⟩
    · cases unwrapJson_error _ _ h1
    · have hacc := unwrapJson_ok_accessible j pr.1 pr.2 (by rw [hpr])
      rw [validateJson_eq pr.1 pr.2 hacc] at h2
      refine ⟨pr.1, pr.2, by rw [hpr], ?_⟩
      split at h2
      · cases h2
        next hm => rw [hm]
      · cases h2
  · rintro ⟨pv, nv, hok, hmiss⟩
    have heq : parseProfileJson (some j) =
        unwrapJson j >>= fun pr => validateJson pr.1 pr.2 := rfl
    rw [heq, ebind_ok_intro hok]
    have hacc := unwrapJson_ok_accessible j pv nv hok
    show validateJson pv nv = _
    rw [validateJson_eq pv nv hacc, hmiss]

/-! ### Threshold monotonicity of hotspot extraction (claim C5) -/

theorem foldl_add_sum (l : List ℚ) (a : ℚ) : l.foldl (· + ·) a = a + l.sum := by
  induction l generalizing a with
  | nil => simp
  | cons x xs ih => rw [List.foldl_cons, ih, List.sum_cons]; ring

/-- When self-percentages are the source's proportional rescaling of self
times, the filter predicate of a higher threshold separates strictly by
self time, so the lower-threshold hotspot list extends the higher one. -/
theorem extractHotspots_monotone (fs : JMap String FunctionStats) (T : ℚ)
    (hpct : ∀ s ∈ jValues fs,
      s.selfPercent = (if 0 < T then s.selfTime / T * 100 else 0))
    (t1 t2 : ℚ) (ht : t2 ≤ t1) (maxCount : ℕ) (x : Hotspot)
    (hx : x ∈ extractHotspots fs t1 maxCount) :
    x ∈ extractHotspots fs t2 maxCount := by
  have hfilter : ((jValues fs).filter fun s => decide (t2 ≤ s.selfPercent)).filter
      (fun s => decide (t1 ≤ s.selfPercent)) =
      (jValues fs).filter fun s => decide (t1 ≤ s.selfPercent) := by
    rw [List.filter_filter]
    apply List.filter_congr
    intro s _
    rcases h1 : decide (t1 ≤ s.selfPercent) with _ | _
    · simp
    · have h2 : t2 ≤ s.selfPercent := le_trans ht (of_decide_eq_true h1)
      simp [h2]
  have hsep : ∀ a ∈ (jValues fs).filter (fun s => decide (t2 ≤ s.selfPercent)),
      (fun s : FunctionStats => decide (t1 ≤ s.selfPercent)) a = true →
      ∀ b ∈ (jValues fs).filter (fun s => decide (t2 ≤ s.selfPercent)),
      (fun s : FunctionStats => decide (t1 ≤ s.selfPercent)) b = false →
      FunctionStats.selfTime b < FunctionStats.selfTime a := by
    intro a ha hpa b hb hpb
    have ha' := (List.mem_filter.mp ha).1
    have hb' := (List.mem_filter.mp hb).1
    have hpa' : t1 ≤ a.selfPercent := of_decide_eq_true hpa
    have hpb' : ¬ t1 ≤ b.selfPercent := of_decide_eq_false hpb
    have hlt : b.selfPercent < a.selfPercent :=
      lt_of_lt_of_le (lt_of_not_le hpb') hpa'
    rw [hpct a ha', hpct b hb'] at hlt
    by_cases hT : 0 < T
    · rw [if_pos hT, if_pos hT] at hlt
      have h1 : FunctionStats.selfTime b / T < FunctionStats.selfTime a / T :=
        lt_of_mul_lt_mul_right hlt (by norm_num)
      exact (div_lt_div_right hT).mp h1
    · rw [if_neg hT, if_neg hT] at hlt
      exact absurd hlt (lt_irrefl 0)
  unfold extractHotspots at hx ⊢
  rcases List.mem_map.mp hx with ⟨s, hs, rfl⟩
  refine List.mem_map.mpr ⟨s, ?_, rfl⟩
  have hsplit := sortByKeyDesc_split FunctionStats.selfTime
    (fun s => decide (t1 ≤ s.selfPercent))
    ((jValues fs).filter fun s => decide (t2 ≤ s.selfPercent)) hsep
  rw [hfilter] at hsplit
  rw [hsplit, List.take_append_eq_append_take]
  exact List.mem_append_left _ hs

/-- Every extracted hotspot is the conversion of an aggregated record. -/
theorem extractHotspots_mem (fs : JMap String FunctionStats)
    (threshold : ℚ) (maxCount : ℕ) (x : Hotspot)
    (hx : x ∈ extractHotspots fs threshold maxCount) :
    ∃ s ∈ jValues fs, x = toHotspot s := by
  unfold extractHotspots at hx
  rcases List.mem_map.mp hx with ⟨s, hs, rfl⟩
  have hs2 := (mem_sortByKeyDesc _ _ _).mp (List.mem_of_mem_take hs)
  exact ⟨s, (List.mem_filter.mp hs2).1, rfl⟩

/-! ## The claims -/

/-- Claim C1: for every profile whose node table lists each id once, whose
samples all name table ids, and whose sample and time-delta sequences have
equal length, the self time attributed by the sample loop of
`analyzeProfile` sums, over all nodes, to the sum of all entries of the
time-delta sequence — which is exactly the `totalTime` of every successful
analysis. -/
theorem claim_C1 (profile : V8Profile)
    (hnd : (profile.nodes.map V8Node.id).Nodup)
    (hsub : ∀ s ∈ profile.samples, s ∈ profile.nodes.map V8Node.id)
    (hlen : profile.samples.length = profile.timeDeltas.length) :
    (profile.nodes.map fun n =>
        (jGet (buildSelfHit profile.samples profile.timeDeltas).1 n.id).getD 0).sum =
      profile.timeDeltas.foldl (· + ·) 0 ∧
    ∀ options r, analyzeProfile profile options = some r →
      r.totalTime = profile.timeDeltas.foldl (· + ·) 0 := by
  constructor
  · rw [buildSelfHit_fst]
    have hmm : (profile.nodes.map fun n =>
        (jGet ((profile.samples.zip profile.timeDeltas).foldl
          (fun m sd => jSet m sd.1 ((jGet m sd.1).getD 0 + sd.2)) []) n.id).getD 0) =
        (profile.nodes.map V8Node.id).map fun j =>
          (jGet ((profile.samples.zip profile.timeDeltas).foldl
            (fun m sd => jSet m sd.1 ((jGet m sd.1).getD 0 + sd.2)) []) j).getD 0 := by
      rw [List.map_map]
      rfl
    rw [hmm, selfTime_fold_sum _ _ _ hnd ?hsubz]
    case hsubz =>
      rintro ⟨a, b⟩ hab
      exact hsub a (List.of_mem_zip hab).1
    have hzero : ((profile.nodes.map V8Node.id).map fun j =>
        (jGet ([] : JMap ℕ ℚ) j).getD 0).sum = 0 := by
      apply List.sum_eq_zero
      intro y hy
      rcases List.mem_map.mp hy with ⟨j, _, rfl⟩
      simp [jGet]
    have hsnd : ((profile.samples.zip profile.timeDeltas).map (·.2) : List ℚ) =
        profile.timeDeltas :=
      List.map_snd_zip _ _ (le_of_eq hlen.symm)
    rw [hzero, hsnd, foldl_add_sum]
  · intro options r h
    exact (analyzeProfile_some profile options r h).1

/-- Claim C2: on every profile whose node table unfolds to a rooted tree
(witness `t`) covering all nodes, with samples naming tree ids, matching
delta length and nonnegative deltas, the memoized traversal enters each id
at most once (duplicate-free visited set) and computes for every subtree
exactly self time plus the sum of the children's totals; hence every
node's total dominates its self time and the root's total is the profile
total time. -/
theorem claim_C2 (profile : V8Profile) (t : NTree)
    (hu : isUnfold (buildNodeMap profile.nodes) t = true)
    (hnd : t.tids.Nodup)
    (hids : ∀ n ∈ profile.nodes, n.id ∈ t.tids)
    (hsam : ∀ s ∈ profile.samples, s ∈ t.tids)
    (hlen : profile.samples.length = profile.timeDeltas.length)
    (hpos : ∀ d ∈ profile.timeDeltas, 0 ≤ d) :
    ∃ st, computeTotalTimeSt profile.nodes (buildNodeMap profile.nodes)
        (buildSelfHit profile.samples profile.timeDeltas).1 = some st ∧
      st.visited.Nodup ∧
      computeTotalTime profile.nodes (buildNodeMap profile.nodes)
        (buildSelfHit profile.samples profile.timeDeltas).1 = st.tmap ∧
      (∀ s ∈ t.subL, jGet st.tmap s.rootId =
        some ((jGet (buildSelfHit profile.samples profile.timeDeltas).1
            s.rootId).getD 0 +
          (s.childList.map fun c => (jGet st.tmap c.rootId).getD 0).sum)) ∧
      (∀ n ∈ profile.nodes,
        (jGet (buildSelfHit profile.samples profile.timeDeltas).1 n.id).getD 0 ≤
          (jGet st.tmap n.id).getD 0) ∧
      jGet st.tmap t.rootId = some (profile.timeDeltas.foldl (· + ·) 0) := by
  set sm := (buildSelfHit profile.samples profile.timeDeltas).1 with hsm
  obtain ⟨st, hst, hinv, hndv, hvis⟩ :=
    computeTotalTimeSt_tree profile.nodes sm t hu hnd hids
  have hsm0 : ∀ j, 0 ≤ (jGet sm j).getD 0 := by
    rw [hsm, buildSelfHit_fst]
    refine selfTime_fold_nonneg _ [] (by simp [jGet]) ?_
    rintro ⟨a, b⟩ hab
    exact hpos b (List.of_mem_zip hab).2
  have hval : ∀ s ∈ t.subL, jGet st.tmap s.rootId = some (pureTotal sm s) := by
    intro s hs
    have hsu := isUnfold_of_mem_subL hu s hs
    have hvisited : s.rootId ∈ st.visited := by
      cases s with
      | node i cs =>
        obtain ⟨n, hn, _, _⟩ := (isUnfold_node _ i cs).mp hsu
        obtain ⟨hmem, hid⟩ := buildNodeMap_mem profile.nodes i n hn
        have hni := hvis n hmem
        rw [hid] at hni
        exact hni
    obtain ⟨s', hs', hr', _, hval'⟩ := hinv s.rootId hvisited (by simp)
    have hss : s' = s := subL_rootId_inj hnd hs' hs hr'
    rw [hss] at hval'
    exact hval'
  refine ⟨st, hst, hndv, ?_, ?_, ?_, ?_⟩
  · unfold computeTotalTime
    rw [hst]
    rfl
  · intro s hs
    cases s with
    | node i cs =>
      have hrhs : ((NTree.node i cs).childList.map
          fun c => (jGet st.tmap c.rootId).getD 0) = cs.map (pureTotal sm) := by
        apply List.map_congr_left
        intro c hc
        rw [hval c (childList_mem_subL hs hc)]
        rfl
      rw [hval _ hs, hrhs, pureTotal_node]
      rfl
  · intro n hniv
    obtain ⟨s, hsL, hsr⟩ := exists_subtree_of_mem_tids (hids n hniv)
    cases s with
    | node i cs =>
      have hi : i = n.id := hsr
      subst hi
      have h1 : jGet st.tmap n.id = some (pureTotal sm (NTree.node n.id cs)) :=
        hval _ hsL
      rw [h1, Option.getD_some]
      exact pureTotal_ge_self sm hsm0 n.id cs
  · have h1 := hval t (mem_subL_self t)
    rw [h1]
    congr 1
    rw [pureTotal_eq_sum_tids, hsm, buildSelfHit_fst,
      selfTime_fold_sum _ _ _ hnd ?hsamz]
    case hsamz =>
      rintro ⟨a, b⟩ hab
      exact hsam a (List.of_mem_zip hab).1
    have hzero : (t.tids.map fun j =>
        (jGet ([] : JMap ℕ ℚ) j).getD 0).sum = 0 := by
      apply List.sum_eq_zero
      intro y hy
      rcases List.mem_map.mp hy with ⟨j, _, rfl⟩
      simp [jGet]
    have hsnd : ((profile.samples.zip profile.timeDeltas).map (·.2) : List ℚ) =
        profile.timeDeltas :=
      List.map_snd_zip _ _ (le_of_eq hlen.symm)
    rw [hzero, hsnd, foldl_add_sum]

/-- Claim C3 (amended): the legacy nested-record serialization and the
flat node-table serialization of the same logical tree produce, through
the full pipeline, identical scalar statistics — total time, total
samples, sample interval, start and end times.  The full per-list
equality of the original claim fails: the legacy linearization pushes
nodes in postorder, so the analyzer roots its call tree at a leaf and
orders tied hotspots differently (see the counterexample). -/
theorem claim_C3 (head : HeadTree) (samples : List ℕ) (timeDeltas : List ℚ)
    (options : AnalyzeOptions) (r1 r2 : AnalysisResult)
    (h1 : analyzeProfile (parseLegacyProfile head samples timeDeltas) options =
      some r1)
    (h2 : analyzeProfile (parseFlatProfile head samples timeDeltas) options =
      some r2) :
    r1.totalTime = r2.totalTime ∧ r1.totalSamples = r2.totalSamples ∧
    r1.sampleInterval = r2.sampleInterval ∧
    r1.startTime = r2.startTime ∧ r1.endTime = r2.endTime := by
  obtain ⟨e1, e2, e3, _, _, _, _, e8, e9⟩ := analyzeProfile_some _ _ _ h1
  obtain ⟨f1, f2, f3, _, _, _, _, f8, f9⟩ := analyzeProfile_some _ _ _ h2
  refine ⟨?_, ?_, ?_, ?_, ?_⟩
  · rw [e1, f1]
    rfl
  · rw [e2, f2]
    rfl
  · rw [e3, f3]
    rfl
  · rw [e8, f8]
    rfl
  · rw [e9, f9]
    rfl

/-- Claim C4: every successful analysis returns hotspots that all have
self percentage at least the caller's threshold, sorted descending by
absolute self time with ties kept in stable aggregation order (each tie
class is a prefix of the filtered aggregation order), of length at most
the caller's maximum count. -/
theorem claim_C4 (profile : V8Profile) (options : AnalyzeOptions)
    (r : AnalysisResult) (h : analyzeProfile profile options = some r) :
    (∀ x ∈ r.hotspots, options.hotspotThreshold ≤ x.selfPercent) ∧
    r.hotspots.Pairwise (fun a b => b.selfTime ≤ a.selfTime) ∧
    r.hotspots.length ≤ options.maxHotspots ∧
    ∀ c : ℚ, ∃ u, r.hotspots.filter (fun x => decide (x.selfTime = c)) ++ u =
      (((jValues r.functionStats).filter
          fun s => decide (options.hotspotThreshold ≤ s.selfPercent)).filter
        fun s => decide (s.selfTime = c)).map toHotspot := by
  obtain ⟨_, _, _, _, e5, _, _, _, _⟩ := analyzeProfile_some _ _ _ h
  refine ⟨?_, ?_, ?_, ?_⟩
  · rw [e5]
    exact extractHotspots_threshold _ _ _
  · rw [e5]
    exact extractHotspots_sorted _ _ _
  · rw [e5]
    exact extractHotspots_length _ _ _
  · intro c
    rw [e5]
    exact extractHotspots_stable _ _ _ c

/-- Claim C5: with the same maximum count and a lower threshold, every
hotspot of the stricter analysis also appears in the laxer one — hotspot
inclusion is monotone in the threshold. -/
theorem claim_C5 (profile : V8Profile) (o1 o2 : AnalyzeOptions)
    (hmax : o1.maxHotspots = o2.maxHotspots)
    (ht : o2.hotspotThreshold ≤ o1.hotspotThreshold)
    (r1 r2 : AnalysisResult)
    (h1 : analyzeProfile profile o1 = some r1)
    (h2 : analyzeProfile profile o2 = some r2) :
    ∀ x ∈ r1.hotspots, x ∈ r2.hotspots := by
  obtain ⟨_, _, _, e4, e5, _, _, _, _⟩ := analyzeProfile_some _ _ _ h1
  obtain ⟨_, _, _, f4, f5, _, _, _, _⟩ := analyzeProfile_some _ _ _ h2
  intro x hx
  rw [e5, e4, hmax] at hx
  rw [f5, f4]
  exact extractHotspots_monotone _ (profile.timeDeltas.foldl (· + ·) 0)
    (fun s hs => (aggregateFunctionStats_percent _ _ _ _ _ _ s hs).1)
    o1.hotspotThreshold o2.hotspotThreshold ht o2.maxHotspots x hx

/-- Claim C6: the classifier always returns one of the three types; the
native rules (empty URL, `native ` prefix, `(native)`, `node_modules` or
`internal/` substring) take priority, then the app rules (http, https or
file scheme prefix, or a path separator), else unknown — in particular a
URL matching a native rule and an app rule is classified native. -/
theorem claim_C6 (url name : String) :
    (determineHotspotType url name = .native ∨
      determineHotspotType url name = .app ∨
      determineHotspotType url name = .unknown) ∧
    ((url = "" ∨ strStartsWith url "native " = true ∨
        strIncludes url "(native)" = true ∨
        strIncludes url "node_modules" = true ∨
        strIncludes url "internal/" = true) →
      determineHotspotType url name = .native) ∧
    (¬(url = "" ∨ strStartsWith url "native " = true ∨
        strIncludes url "(native)" = true ∨
        strIncludes url "node_modules" = true ∨
        strIncludes url "internal/" = true) →
      (strStartsWith url "http://" = true ∨ strStartsWith url "https://" = true ∨
        strStartsWith url "file://" = true ∨ strIncludes url "/" = true ∨
        strIncludes url "\x5c" = true) →
      determineHotspotType url name = .app) ∧
    (¬(url = "" ∨ strStartsWith url "native " = true ∨
        strIncludes url "(native)" = true ∨
        strIncludes url "node_modules" = true ∨
        strIncludes url "internal/" = true) →
      ¬(strStartsWith url "http://" = true ∨ strStartsWith url "https://" = true ∨
        strStartsWith url "file://" = true ∨ strIncludes url "/" = true ∨
        strIncludes url "\x5c" = true) →
      determineHotspotType url name = .unknown) := by
  refine ⟨?_, ?_, ?_, ?_⟩
  · cases h : determineHotspotType url name with
    | native => exact Or.inl rfl
    | app => exact Or.inr (Or.inl rfl)
    | unknown => exact Or.inr (Or.inr rfl)
  · intro hnat
    unfold determineHotspotType
    split
    next => rfl
    next h0 =>
      split
      next => rfl
      next h1 =>
        exfalso
        simp only [Bool.or_eq_true, decide_eq_true_eq, not_or] at h0 h1
        tauto
  · intro hnotnat happ
    simp only [not_or] at hnotnat
    unfold determineHotspotType
    split
    next h0 =>
      exfalso
      simp only [Bool.or_eq_true, decide_eq_true_eq] at h0
      tauto
    next =>
      split
      next h1 =>
        exfalso
        simp only [Bool.or_eq_true] at h1
        tauto
      next =>
        split
        next => rfl
        next h2 =>
          split
          next => rfl
          next h3 =>
            exfalso
            simp only [Bool.or_eq_true, not_or] at h2 h3
            tauto
  · intro hnotnat hnotapp
    simp only [not_or] at hnotnat hnotapp
    unfold determineHotspotType
    split
    next h0 =>
      exfalso
      simp only [Bool.or_eq_true, decide_eq_true_eq] at h0
      tauto
    next =>
      split
      next h1 =>
        exfalso
        simp only [Bool.or_eq_true] at h1
        tauto
      next =>
        split
        next h2 =>
          exfalso
          simp only [Bool.or_eq_true] at h2
          tauto
        next =>
          split
          next h3 =>
            exfalso
            simp only [Bool.or_eq_true] at h3
            tauto
          next => rfl

/-- Claim C7: the traversal of a successful analysis's call tree records
one path per leaf; every returned critical path is a root-to-leaf frame
sequence whose score is the sum of the self percentages along it; and the
returned list is sorted non-increasing by score with length at most the
caller's maximum. -/
theorem claim_C7 (profile : V8Profile) (options : AnalyzeOptions)
    (r : AnalysisResult) (h : analyzeProfile profile options = some r) :
    (pathsOf r.callTree []).length = leafCount r.callTree ∧
    (∀ pr ∈ r.criticalPaths, ∃ p, RootToLeaf r.callTree p ∧ pr.path = p ∧
      pr.cumulativePercent = (p.map PathNode.selfPercent).sum) ∧
    r.criticalPaths.Pairwise
      (fun a b => b.cumulativePercent ≤ a.cumulativePercent) ∧
    r.criticalPaths.length ≤ options.maxPaths := by
  obtain ⟨_, _, _, _, _, _, e7, _, _⟩ := analyzeProfile_some _ _ _ h
  refine ⟨(pathsOf_spec r.callTree []).1, ?_, ?_, ?_⟩
  · intro pr hpr
    rw [e7] at hpr
    unfold findCriticalPaths at hpr
    have h2 := (mem_sortByKeyDesc _ _ _).mp (List.mem_of_mem_take hpr)
    obtain ⟨p, hp1, hp2, hp3⟩ := (pathsOf_spec r.callTree []).2 pr h2
    rw [List.nil_append] at hp2 hp3
    exact ⟨p, hp1, hp2, hp3⟩
  · rw [e7]
    unfold findCriticalPaths
    exact List.Pairwise.sublist (List.take_sublist _ _)
      (pairwise_sortByKeyDesc _ _)
  · rw [e7]
    unfold findCriticalPaths
    exact List.length_take_le _ _

/-- Claim C8 (amended): the parse stage fails with `invalidEncoding`
exactly on un-parseable input; and, provided the unwrap phase succeeds on
the parsed JSON — which a bare `null` does not (see the counterexample;
it throws a TypeError instead) — it fails with `malformedProfile f`
exactly when the first missing of the required nodes/samples/timeDeltas
arrays is `f`. -/
theorem claim_C8 (input : Option Json) :
    (parseProfileJson input = .error .invalidEncoding ↔ input = none) ∧
    ∀ j f, input = some j →
      (parseProfileJson input = .error (.malformedProfile f) ↔
        ∃ pv nv, unwrapJson j = .ok (pv, nv) ∧ firstMissing pv nv = some f) := by
  refine ⟨parseProfileJson_invalidEncoding_iff input, ?_⟩
  intro j f hj
  rw [hj]
  exact parseProfileJson_malformed_iff j f

/-- Every id of a tree witness names a table node: the unfold condition
resolves each subtree root in the node map. -/
theorem tids_subset_ids (nodes : List V8Node) (t : NTree)
    (hu : isUnfold (buildNodeMap nodes) t = true) :
    ∀ j ∈ t.tids, j ∈ nodes.map V8Node.id := by
  intro j hj
  obtain ⟨s', hs', hr'⟩ := exists_subtree_of_mem_tids hj
  have hsu' := isUnfold_of_mem_subL hu s' hs'
  cases s' with
  | node i cs =>
    obtain ⟨n, hni, _, _⟩ := (isUnfold_node _ i cs).mp hsu'
    obtain ⟨hmem, hid⟩ := buildNodeMap_mem nodes i n hni
    have hij : i = j := hr'
    subst hij
    exact List.mem_map.mpr ⟨n, hmem, hid⟩

/-- On a nonempty node table that unfolds to a rooted tree, the whole
analysis succeeds: the call-tree recursion starting at `nodes[0]` stays
within the tree, whose depth is below the fuel bound. -/
theorem analyzeProfile_isSome_of_tree (profile : V8Profile)
    (options : AnalyzeOptions) (t : NTree)
    (hu : isUnfold (buildNodeMap profile.nodes) t = true)
    (hnd : t.tids.Nodup)
    (hids : ∀ n ∈ profile.nodes, n.id ∈ t.tids)
    (hne : profile.nodes ≠ []) :
    (analyzeProfile profile options).isSome := by
  have hlen : t.tids.length ≤ profile.nodes.length := by
    have h1 := (List.subperm_of_subset hnd
      fun a ha => tids_subset_ids profile.nodes t hu a ha).length_le
    rw [List.length_map] at h1
    exact h1
  obtain ⟨x, xs, hn⟩ : ∃ x xs, profile.nodes = x :: xs := by
    cases hnm : profile.nodes with
    | nil => exact absurd hnm hne
    | cons a l => exact ⟨a, l, rfl⟩
  have hmemx : x ∈ profile.nodes := by
    rw [hn]
    exact List.mem_cons_self _ _
  obtain ⟨s, hsL, hsr⟩ := exists_subtree_of_mem_tids (hids x hmemx)
  have hsu := isUnfold_of_mem_subL hu s hsL
  have hdepth : s.depth ≤ profile.nodes.length + 1 := by
    have h1 := depth_le_tids_length s
    have h2 := (tids_sublist_of_mem_subL t s hsL).length_le
    omega
  have hct := buildCTNode_some (buildNodeMap profile.nodes)
    (buildSelfHit profile.samples profile.timeDeltas).1
    (computeTotalTime profile.nodes (buildNodeMap profile.nodes)
      (buildSelfHit profile.samples profile.timeDeltas).1)
    (profile.timeDeltas.foldl (· + ·) 0) s hsu
    (profile.nodes.length + 1) hdepth
  rw [hsr] at hct
  obtain ⟨ct, hctv⟩ := Option.isSome_iff_exists.mp hct
  have hh : profile.nodes.head? = some x := by
    rw [hn]
    rfl
  have hbc : buildCallTree x (buildNodeMap profile.nodes)
      (buildSelfHit profile.samples profile.timeDeltas).1
      (computeTotalTime profile.nodes (buildNodeMap profile.nodes)
        (buildSelfHit profile.samples profile.timeDeltas).1)
      (profile.timeDeltas.foldl (· + ·) 0)
      (profile.nodes.length + 1) = some ct := hctv
  unfold analyzeProfile
  simp only [hh, hbc, Option.isSome_some]

/-- The graceful-degradation facts of a successful analysis with no
samples and no time deltas. -/
theorem analyzeEmpty_grace (profile : V8Profile) (options : AnalyzeOptions)
    (hs : profile.samples = []) (hd : profile.timeDeltas = [])
    (r : AnalysisResult) (h : analyzeProfile profile options = some r) :
    r.totalTime = 0 ∧ r.totalSamples = 0 ∧ r.sampleInterval = none ∧
    (∀ s ∈ jValues r.functionStats, s.selfPercent = 0 ∧ s.totalPercent = 0) ∧
    (∀ x ∈ r.hotspots, x.selfPercent = 0) ∧
    ctAllZero r.callTree ∧
    (∀ p ∈ r.criticalPaths, p.cumulativePercent = 0) := by
  obtain ⟨e1, e2, e3, e4, e5, e6, e7, _, _⟩ := analyzeProfile_some _ _ _ h
  have hT : profile.timeDeltas.foldl (· + ·) 0 = 0 := by
    rw [hd]
    rfl
  have hTpos : ¬ (0:ℚ) < profile.timeDeltas.foldl (· + ·) 0 := by
    rw [hT]
    exact lt_irrefl 0
  have hpct : ∀ s ∈ jValues r.functionStats,
      s.selfPercent = 0 ∧ s.totalPercent = 0 := by
    intro s hsv
    rw [e4] at hsv
    have hp := aggregateFunctionStats_percent _ _ _ _ _ _ s hsv
    rw [if_neg hTpos, if_neg hTpos] at hp
    exact hp
  have hctz : ctAllZero r.callTree := by
    obtain ⟨rootNode, hroot, hct⟩ := e6
    exact (buildCT_allZero _ _ _ _ hTpos _).1 _ _ hct
  refine ⟨?_, ?_, ?_, hpct, ?_, hctz, ?_⟩
  · rw [e1, hT]
  · rw [e2, hs]
    rfl
  · rw [e3, hs]
    rfl
  · intro x hx
    rw [e5] at hx
    obtain ⟨s, hsv, rfl⟩ := extractHotspots_mem _ _ _ x hx
    rw [toHotspot_selfPercent]
    exact (hpct s hsv).1
  · intro p hp
    rw [e7] at hp
    unfold findCriticalPaths at hp
    have h2 := (mem_sortByKeyDesc _ _ _).mp (List.mem_of_mem_take hp)
    obtain ⟨q, hq1, _, hq3⟩ := (pathsOf_spec r.callTree []).2 p h2
    rw [List.nil_append] at hq3
    rw [hq3]
    apply List.sum_eq_zero
    intro y hy
    rcases List.mem_map.mp hy with ⟨pn, hpn, rfl⟩
    exact (rootToLeaf_allZero r.callTree q hq1 hctz pn hpn).1

/-- Claim C9 (amended): on a structurally valid profile — a nonempty node
table that unfolds to a rooted tree (witness `t`) — with no samples and no
time deltas, `analyzeProfile` does not fail, and the result degrades
gracefully: total time and total samples are zero, every percentage in
the function statistics, the hotspots, the call tree and the critical
paths is zero — but the mean sample interval is the JS `NaN` of `0 / 0`
(modelled `none`), not a zero value (see the counterexample). -/
theorem claim_C9 (profile : V8Profile) (options : AnalyzeOptions) (t : NTree)
    (hu : isUnfold (buildNodeMap profile.nodes) t = true)
    (hnd : t.tids.Nodup)
    (hids : ∀ n ∈ profile.nodes, n.id ∈ t.tids)
    (hne : profile.nodes ≠ [])
    (hs : profile.samples = []) (hd : profile.timeDeltas = []) :
    ∃ r, analyzeProfile profile options = some r ∧
      (r.totalTime = 0 ∧ r.totalSamples = 0 ∧ r.sampleInterval = none ∧
      (∀ s ∈ jValues r.functionStats, s.selfPercent = 0 ∧ s.totalPercent = 0) ∧
      (∀ x ∈ r.hotspots, x.selfPercent = 0) ∧
      ctAllZero r.callTree ∧
      (∀ p ∈ r.criticalPaths, p.cumulativePercent = 0)) := by
  obtain ⟨r, hr⟩ := Option.isSome_iff_exists.mp
    (analyzeProfile_isSome_of_tree profile options t hu hnd hids hne)
  exact ⟨r, hr, analyzeEmpty_grace profile options hs hd r hr⟩

/-- Claim C10: the total-time computation terminates on every node table,
cyclic tables and tables with shared children included, and its final map
has an entry for every table node id; the visited set records each entered
id at most once. -/
theorem claim_C10 (nodes : List V8Node) (sm : JMap ℕ ℚ) :
    ∃ st, computeTotalTimeSt nodes (buildNodeMap nodes) sm = some st ∧
      st.visited.Nodup ∧ ∀ n ∈ nodes, (jGet st.tmap n.id).isSome :=
  computeTotalTimeSt_total nodes sm

/-! ## Concrete data for the witnesses and counterexamples -/

def cfW : V8CallFrame :=
  { functionName := "f", scriptId := "0", url := "file:///a.js",
    lineNumber := 1, columnNumber := 0 }

/-- One node, one sample of 2 microseconds on it. -/
def profW1 : V8Profile :=
  { nodes := [{ id := 1, callFrame := cfW }], samples := [1], timeDeltas := [2] }

/-- A two-node chain with one sample of 5 microseconds on the leaf. -/
def profW2 : V8Profile :=
  { nodes := [{ id := 1, callFrame := cfW, children := [2] },
      { id := 2, callFrame := cfW, parent := some 1 }],
    samples := [2], timeDeltas := [5] }

def tW2 : NTree := .node 1 [.node 2 []]

/-- One node, no samples and no deltas. -/
def profEmptyW : V8Profile :=
  { nodes := [{ id := 1, callFrame := cfW }], samples := [], timeDeltas := [] }

/-- A cyclic node table: 1 and 2 list each other as children. -/
def cycNodes : List V8Node :=
  [{ id := 1, callFrame := cfW, children := [2] },
   { id := 2, callFrame := cfW, children := [1] }]

def cfR : V8CallFrame :=
  { functionName := "R", scriptId := "0", url := "app.js",
    lineNumber := 1, columnNumber := 0 }

def cfA : V8CallFrame :=
  { functionName := "A", scriptId := "0", url := "app.js",
    lineNumber := 2, columnNumber := 0 }

def cfB : V8CallFrame :=
  { functionName := "B", scriptId := "0", url := "app.js",
    lineNumber := 3, columnNumber := 0 }

/-- The logical chain R → A → B. -/
def headW : HeadTree := .node cfR 0 [.node cfA 0 [.node cfB 0 []]]

/-- Valid JSON with nodes and timeDeltas arrays but no samples. -/
def jsonNoSamples : Json :=
  .obj [("nodes", .arr []), ("timeDeltas", .arr [])]

theorem tW2_tids : tW2.tids = [1, 2] := by
  simp [tW2, tids_node]

theorem tW2_unfold : isUnfold (buildNodeMap profW2.nodes) tW2 = true := by
  simp +decide [tW2, profW2, cfW, isUnfold, attach_all_eq, buildNodeMap,
    jSet, jGet, NTree.rootId]

/-! ## Witnesses and counterexamples -/

def optW5 : AnalyzeOptions := { hotspotThreshold := 2 }

theorem isSome_of_map_eq {o : Option α} {f : α → β} {v : β}
    (h : o.map f = some v) : o.isSome := by
  cases o with
  | none => simp at h
  | some a => rfl

/-- The legacy linearization of the chain, before the children rebuild:
ids are preorder, the array order is postorder. -/
theorem legacyRawW :
    linearizeHeadBasedTree headW =
      [{ id := 3, callFrame := cfB, parent := some 2 },
        { id := 2, callFrame := cfA, children := [3], parent := some 1 },
        { id := 1, callFrame := cfR, children := [2] }] := by
  show (linNode headW none 1).1 = _
  simp [headW, linNode, linList]

/-- The flat serialization of the same chain: preorder array order. -/
theorem flatRawW :
    flatSerialize headW =
      [{ id := 1, callFrame := cfR, children := [2] },
        { id := 2, callFrame := cfA, children := [3], parent := some 1 },
        { id := 3, callFrame := cfB, parent := some 2 }] := by
  show (flatNode headW none 1).1 = _
  simp [headW, flatNode, flatList]

theorem legacyProfileW :
    parseLegacyProfile headW [3, 2] [5, 5] =
      { nodes := [{ id := 3, callFrame := cfB, parent := some 2 },
          { id := 2, callFrame := cfA, children := [3], parent := some 1 },
          { id := 1, callFrame := cfR, children := [2] }],
        samples := [3, 2], timeDeltas := [5, 5] } := by
  unfold parseLegacyProfile
  rw [legacyRawW]
  simp +decide [rebuildChildrenFromParent, setAdd, jSet, jGet, jValues]

theorem flatProfileW :
    parseFlatProfile headW [3, 2] [5, 5] =
      { nodes := [{ id := 1, callFrame := cfR, children := [2] },
          { id := 2, callFrame := cfA, children := [3], parent := some 1 },
          { id := 3, callFrame := cfB, parent := some 2 }],
        samples := [3, 2], timeDeltas := [5, 5] } := by
  unfold parseFlatProfile
  rw [flatRawW]
  simp +decide [rebuildChildrenFromParent, setAdd, jSet, jGet, jValues]

/-- The full pipeline on the legacy serialization: the call tree is rooted
at the leaf B and the tied hotspots keep the postorder order B, A. -/
theorem legacyEvalW :
    ((analyzeProfile (parseLegacyProfile headW [3, 2] [5, 5]) {}).map
        fun r => (r.callTree.name, r.hotspots.map Hotspot.name)) =
      some ("B", ["B", "A"]) := by
  rw [legacyProfileW]
  simp +decide [cfR, cfA, cfB, analyzeProfile, buildNodeMap, buildSelfHit,
    computeTotalTime, computeTotalTimeSt, goNode, goChildren, ttFuel,
    aggregateFunctionStats, aggStep, initialStats, statKey, setAdd, jSet,
    jGet, jValues, buildCallTree, buildCTNode, buildCTList, extractHotspots,
    sortByKeyDesc, insertDesc, toHotspot, determineHotspotType,
    strStartsWith, strIncludes, findCriticalPaths, pathsOf,
    CallTreeNode.name, Hotspot.name]
  norm_num [insertDesc, toHotspot, Hotspot.name, determineHotspotType,
    strStartsWith, strIncludes]

/-- The full pipeline on the flat serialization: the call tree is rooted
at R and the tied hotspots keep the preorder order A, B. -/
theorem flatEvalW :
    ((analyzeProfile (parseFlatProfile headW [3, 2] [5, 5]) {}).map
        fun r => (r.callTree.name, r.hotspots.map Hotspot.name)) =
      some ("R", ["A", "B"]) := by
  rw [flatProfileW]
  simp +decide [cfR, cfA, cfB, analyzeProfile, buildNodeMap, buildSelfHit,
    computeTotalTime, computeTotalTimeSt, goNode, goChildren, ttFuel,
    aggregateFunctionStats, aggStep, initialStats, statKey, setAdd, jSet,
    jGet, jValues, buildCallTree, buildCTNode, buildCTList, extractHotspots,
    sortByKeyDesc, insertDesc, toHotspot, determineHotspotType,
    strStartsWith, strIncludes, findCriticalPaths, pathsOf,
    CallTreeNode.name, Hotspot.name]
  norm_num [insertDesc, toHotspot, Hotspot.name, determineHotspotType,
    strStartsWith, strIncludes]

theorem profW1_isSome : (analyzeProfile profW1 {}).isSome := by
  simp +decide [profW1, cfW, analyzeProfile, buildNodeMap, buildSelfHit,
    computeTotalTime, computeTotalTimeSt, goNode, goChildren, ttFuel,
    aggregateFunctionStats, aggStep, initialStats, statKey, setAdd, jSet,
    jGet, jValues, buildCallTree, buildCTNode, buildCTList, extractHotspots,
    sortByKeyDesc, insertDesc, toHotspot, determineHotspotType,
    strStartsWith, strIncludes, findCriticalPaths, pathsOf]

theorem profW1_optW5_isSome : (analyzeProfile profW1 optW5).isSome := by
  simp +decide [profW1, cfW, optW5, analyzeProfile, buildNodeMap,
    buildSelfHit, computeTotalTime, computeTotalTimeSt, goNode, goChildren,
    ttFuel, aggregateFunctionStats, aggStep, initialStats, statKey, setAdd,
    jSet, jGet, jValues, buildCallTree, buildCTNode, buildCTList,
    extractHotspots, sortByKeyDesc, insertDesc, toHotspot,
    determineHotspotType, strStartsWith, strIncludes, findCriticalPaths,
    pathsOf]

/-- With no samples the analysis succeeds and its sample interval is the
non-finite marker. -/
theorem profEmptyW_si :
    ((analyzeProfile profEmptyW {}).map fun r => r.sampleInterval) =
      some none := by
  simp +decide [profEmptyW, cfW, analyzeProfile, buildNodeMap, buildSelfHit,
    computeTotalTime, computeTotalTimeSt, goNode, goChildren, ttFuel,
    aggregateFunctionStats, aggStep, initialStats, statKey, setAdd, jSet,
    jGet, jValues, buildCallTree, buildCTNode, buildCTList, extractHotspots,
    sortByKeyDesc, insertDesc, toHotspot, determineHotspotType,
    strStartsWith, strIncludes, findCriticalPaths, pathsOf]

/-- Claim C1 at the one-node, one-sample profile. -/
theorem claim_C1_witness :
    (profW1.nodes.map fun n =>
        (jGet (buildSelfHit profW1.samples profW1.timeDeltas).1 n.id).getD 0).sum =
      profW1.timeDeltas.foldl (· + ·) 0 :=
  (claim_C1 profW1 (by decide) (by decide) (by decide)).1

/-- Claim C2 at the two-node chain. -/
theorem claim_C2_witness :
    ∃ st, computeTotalTimeSt profW2.nodes (buildNodeMap profW2.nodes)
        (buildSelfHit profW2.samples profW2.timeDeltas).1 = some st ∧
      st.visited.Nodup ∧
      computeTotalTime profW2.nodes (buildNodeMap profW2.nodes)
        (buildSelfHit profW2.samples profW2.timeDeltas).1 = st.tmap ∧
      (∀ s ∈ tW2.subL, jGet st.tmap s.rootId =
        some ((jGet (buildSelfHit profW2.samples profW2.timeDeltas).1
            s.rootId).getD 0 +
          (s.childList.map fun c => (jGet st.tmap c.rootId).getD 0).sum)) ∧
      (∀ n ∈ profW2.nodes,
        (jGet (buildSelfHit profW2.samples profW2.timeDeltas).1 n.id).getD 0 ≤
          (jGet st.tmap n.id).getD 0) ∧
      jGet st.tmap tW2.rootId = some (profW2.timeDeltas.foldl (· + ·) 0) :=
  claim_C2 profW2 tW2 tW2_unfold (by rw [tW2_tids]; decide)
    (by rw [tW2_tids]; decide) (by rw [tW2_tids]; decide) (by decide) (by decide)

/-- Claim C3 counterexample: through the full pipeline, the legacy
nested-record serialization of the chain R → A → B (samples on B and A)
roots the call tree at the leaf B and lists the tied hotspots as B, A,
while the flat serialization of the same tree roots it at R and lists
them as A, B. -/
theorem claim_C3_counterexample :
    ((analyzeProfile (parseLegacyProfile headW [3, 2] [5, 5]) {}).map
        fun r => (r.callTree.name, r.hotspots.map Hotspot.name)) =
      some ("B", ["B", "A"]) ∧
    ((analyzeProfile (parseFlatProfile headW [3, 2] [5, 5]) {}).map
        fun r => (r.callTree.name, r.hotspots.map Hotspot.name)) =
      some ("R", ["A", "B"]) :=
  ⟨legacyEvalW, flatEvalW⟩

/-- Claim C3 (amended) at the chain R → A → B: both serializations give
the same scalar statistics. -/
theorem claim_C3_witness :
    ∃ r1 r2,
      analyzeProfile (parseLegacyProfile headW [3, 2] [5, 5]) {} = some r1 ∧
      analyzeProfile (parseFlatProfile headW [3, 2] [5, 5]) {} = some r2 ∧
      r1.totalTime = r2.totalTime ∧ r1.totalSamples = r2.totalSamples ∧
      r1.sampleInterval = r2.sampleInterval ∧
      r1.startTime = r2.startTime ∧ r1.endTime = r2.endTime := by
  obtain ⟨r1, hr1⟩ := Option.isSome_iff_exists.mp (isSome_of_map_eq legacyEvalW)
  obtain ⟨r2, hr2⟩ := Option.isSome_iff_exists.mp (isSome_of_map_eq flatEvalW)
  obtain ⟨g1, g2, g3, g4, g5⟩ :=
    claim_C3 headW [3, 2] [5, 5] {} r1 r2 hr1 hr2
  exact ⟨r1, r2, hr1, hr2, g1, g2, g3, g4, g5⟩

/-- Claim C4 at the one-node, one-sample profile with default options. -/
theorem claim_C4_witness :
    ∃ r, analyzeProfile profW1 {} = some r ∧
      ((∀ x ∈ r.hotspots,
          ({} : AnalyzeOptions).hotspotThreshold ≤ x.selfPercent) ∧
      r.hotspots.Pairwise (fun a b => b.selfTime ≤ a.selfTime) ∧
      r.hotspots.length ≤ ({} : AnalyzeOptions).maxHotspots ∧
      ∀ c : ℚ, ∃ u, r.hotspots.filter (fun x => decide (x.selfTime = c)) ++ u =
        (((jValues r.functionStats).filter
            fun s => decide (({} : AnalyzeOptions).hotspotThreshold ≤
              s.selfPercent)).filter
          fun s => decide (s.selfTime = c)).map toHotspot) := by
  obtain ⟨r, hr⟩ := Option.isSome_iff_exists.mp profW1_isSome
  exact ⟨r, hr, claim_C4 profW1 {} r hr⟩

/-- Claim C5 at the one-node profile, thresholds 2 and the default 1. -/
theorem claim_C5_witness :
    ∃ r1 r2, analyzeProfile profW1 optW5 = some r1 ∧
      analyzeProfile profW1 {} = some r2 ∧
      ∀ x ∈ r1.hotspots, x ∈ r2.hotspots := by
  obtain ⟨r1, hr1⟩ := Option.isSome_iff_exists.mp profW1_optW5_isSome
  obtain ⟨r2, hr2⟩ := Option.isSome_iff_exists.mp profW1_isSome
  exact ⟨r1, r2, hr1, hr2,
    claim_C5 profW1 optW5 {} rfl (by decide) r1 r2 hr1 hr2⟩

/-- Claim C6 at a URL matching both a native rule (`internal/`) and an
app rule (a path separator): classified native. -/
theorem claim_C6_witness :
    determineHotspotType "internal/util.js" "f" = .native ∧
    strIncludes "internal/util.js" "internal/" = true ∧
    strIncludes "internal/util.js" "/" = true :=
  ⟨(claim_C6 "internal/util.js" "f").2.1
      (Or.inr (Or.inr (Or.inr (Or.inr (by decide))))),
    by decide, by decide⟩

/-- Claim C7 at the one-node, one-sample profile. -/
theorem claim_C7_witness :
    ∃ r, analyzeProfile profW1 {} = some r ∧
      ((pathsOf r.callTree []).length = leafCount r.callTree ∧
      (∀ pr ∈ r.criticalPaths, ∃ p, RootToLeaf r.callTree p ∧ pr.path = p ∧
        pr.cumulativePercent = (p.map PathNode.selfPercent).sum) ∧
      r.criticalPaths.Pairwise
        (fun a b => b.cumulativePercent ≤ a.cumulativePercent) ∧
      r.criticalPaths.length ≤ ({} : AnalyzeOptions).maxPaths) := by
  obtain ⟨r, hr⟩ := Option.isSome_iff_exists.mp profW1_isSome
  exact ⟨r, hr, claim_C7 profW1 {} r hr⟩

/-- Claim C8 counterexample: a bare JSON `null` is parseable JSON, yet the
parse stage throws a TypeError — neither the invalid-encoding condition
nor a malformed-profile condition naming a field. -/
theorem claim_C8_counterexample :
    parseProfileJson (some Json.null) = .error .typeError ∧
    (ParseError.typeError ≠ ParseError.invalidEncoding) ∧
    ∀ f, ParseError.typeError ≠ ParseError.malformedProfile f := by
  refine ⟨rfl, ?_, ?_⟩
  · intro h
    cases h
  · intro f h
    cases h

/-- Claim C8 (amended) at valid JSON missing the samples array: the error
names "samples". -/
theorem claim_C8_witness :
    parseProfileJson (some jsonNoSamples) = .error (.malformedProfile "samples") := by
  apply ((claim_C8 (some jsonNoSamples)).2 jsonNoSamples "samples" rfl).mpr
  exact ⟨some jsonNoSamples, some (.arr []), rfl, rfl⟩

/-- Claim C9 counterexample: with no samples the analysis succeeds but the
sample interval is the JS `NaN` of `0 / 0` (modelled `none`), not a zero
value. -/
theorem claim_C9_counterexample :
    ((analyzeProfile profEmptyW {}).map fun r => r.sampleInterval) =
      some none ∧
    (none : Option ℚ) ≠ some 0 :=
  ⟨profEmptyW_si, by decide⟩

/-- Claim C9 (amended) at the one-node profile with no samples. -/
theorem claim_C9_witness :
    ∃ r, analyzeProfile profEmptyW {} = some r ∧
      (r.totalTime = 0 ∧ r.totalSamples = 0 ∧ r.sampleInterval = none ∧
      (∀ s ∈ jValues r.functionStats, s.selfPercent = 0 ∧ s.totalPercent = 0) ∧
      (∀ x ∈ r.hotspots, x.selfPercent = 0) ∧
      ctAllZero r.callTree ∧
      (∀ p ∈ r.criticalPaths, p.cumulativePercent = 0)) :=
  claim_C9 profEmptyW {} (NTree.node 1 [])
    (by simp +decide [profEmptyW, cfW, isUnfold, attach_all_eq, buildNodeMap,
      jSet, jGet, NTree.rootId])
    (by rw [tids_node]; decide)
    (by rw [tids_node]; decide)
    (by decide) rfl rfl

/-- Claim C10 at a cyclic node table. -/
theorem claim_C10_witness :
    ∃ st, computeTotalTimeSt cycNodes (buildNodeMap cycNodes) [] = some st ∧
      st.visited.Nodup ∧ ∀ n ∈ cycNodes, (jGet st.tmap n.id).isSome :=
  claim_C10 cycNodes []

end CpuProf
